import Mathlib

/-!
Verification of the git-buddy ATS tailoring core
(`src/ats-tailor-extension2.0/turbo-pipeline.js` and
`src/ats-tailor-extension2.0/pdf-ats-turbo.js`) against its
natural-language specification.

Text is modelled as `List Char` (the JS string, ASCII-faithful: the
repository's stop-word, allow-list and header tables are all ASCII, and
`Char.toLower` agrees with JavaScript `toLowerCase` on ASCII).
-/

namespace GitBuddy

/-- JS strings, modelled as lists of characters. -/
abbrev Str := List Char

/-- ASCII whitespace, the fragment of the JS `\s` class and of `trim()`
that the repository's tables exercise. -/
def isWsChar (c : Char) : Bool :=
  c.toNat = 32 || c.toNat = 9 || c.toNat = 10 || c.toNat = 13 ||
  c.toNat = 11 || c.toNat = 12

/-- JS `toLowerCase`, per character (ASCII). -/
def lowerStr (s : Str) : Str := s.map Char.toLower

/-- JS `String.prototype.trim` (ASCII whitespace). -/
def trimStr (s : Str) : Str :=
  ((s.dropWhile isWsChar).reverse.dropWhile isWsChar).reverse

/-- `p` is a prefix of `l` (Bool, by char equality). -/
def prefOf : Str → Str → Bool
  | [], _ => true
  | _ :: _, [] => false
  | a :: as, b :: bs => a = b && prefOf as bs

/-- JS `String.prototype.includes`: `p` occurs as a contiguous substring
of `l`. -/
def subOf (p : Str) : Str → Bool
  | [] => prefOf p []
  | l@(_ :: rest) => prefOf p l || subOf p rest

/-- JS `split('\n')`. -/
def splitNl : Str → List Str
  | [] => [[]]
  | c :: rest =>
    if c = '\n' then [] :: splitNl rest
    else
      match splitNl rest with
      | h :: t => (c :: h) :: t
      | [] => [[c]]

/-- JS `join('\n')` (inverse of `splitNl`). -/
def joinNl : List Str → Str
  | [] => []
  | [l] => l
  | l :: ls => l ++ '\n' :: joinNl ls

/-- JS `Array.prototype.flatten(sep)`. -/
def joinSep (sep : Str) : List Str → Str
  | [] => []
  | [x] => x
  | x :: xs => x ++ sep ++ joinSep sep xs

/-- Accumulator form of `splitWs`; `cur` is the reversed current token. -/
def splitWsAux : Str → Str → List Str
  | [], cur => if cur = [] then [] else [cur.reverse]
  | c :: r, cur =>
    if isWsChar c then
      if cur = [] then splitWsAux r [] else cur.reverse :: splitWsAux r []
    else splitWsAux r (c :: cur)

/-- JS `split(/\s+/)` restricted to the maximal non-whitespace runs.
(JS also emits an empty first/last piece when the text starts/ends with
whitespace; at the only call site those empties are removed by the
`length >= 3` filter, so they are dropped here.) -/
def splitWs (s : Str) : List Str := splitWsAux s []

/-- JS `split(/[, \n]/)`: split at every single occurrence of one of the
separator characters, keeping empty pieces. -/
def splitAny (seps : List Char) : Str → List Str
  | [] => [[]]
  | c :: rest =>
    if c ∈ seps then [] :: splitAny seps rest
    else
      match splitAny seps rest with
      | h :: t => (c :: h) :: t
      | [] => [[c]]

/-- First index of `'\n'` in `s` (JS `indexOf('\n')` on the suffix). -/
def findIdxNl : Str → Option Nat
  | [] => none
  | c :: r => if c = '\n' then some 0 else (findIdxNl r).map (· + 1)

/-- JS `indexOf('\n', start)`. -/
def idxOfNl (s : Str) (start : Nat) : Option Nat :=
  (findIdxNl (s.drop start)).map (start + ·)

/-! ### turbo-pipeline.js — keyword extraction -/

/-- Stop-word set of `ultraFastExtraction` (turbo-pipeline.js:75-82). -/
def stopWords : List Str :=
  ["a".data, "an".data, "the".data, "and".data, "or".data, "but".data,
   "in".data, "on".data, "at".data, "to".data, "for".data, "of".data,
   "with".data, "by".data, "from".data, "as".data, "is".data, "was".data,
   "are".data, "were".data, "been".data, "be".data, "have".data, "has".data,
   "had".data, "do".data, "does".data, "did".data, "will".data,
   "would".data, "could".data, "should".data, "may".data, "might".data,
   "must".data, "can".data, "need".data, "this".data, "that".data,
   "you".data, "your".data, "we".data, "our".data, "they".data,
   "their".data, "work".data, "working".data, "job".data, "position".data,
   "role".data, "team".data, "company".data, "opportunity".data,
   "looking".data, "seeking".data, "required".data, "requirements".data,
   "preferred".data, "ability".data, "able".data, "experience".data,
   "years".data, "year".data, "including".data, "new".data]

/-- Tech-term allowlist of `ultraFastExtraction` (turbo-pipeline.js:84-89).
Note the multi-word entries (`machine learning`, `deep learning`), kept
verbatim from the source. -/
def techBoost : List Str :=
  ["python".data, "java".data, "javascript".data, "typescript".data,
   "sql".data, "aws".data, "azure".data, "gcp".data, "kubernetes".data,
   "docker".data, "terraform".data, "react".data, "angular".data,
   "vue".data, "node".data, "spark".data, "kafka".data, "airflow".data,
   "tableau".data, "snowflake".data, "machine learning".data,
   "deep learning".data, "ai".data, "ml".data, "nlp".data, "agile".data,
   "scrum".data, "ci/cd".data, "devops".data, "api".data, "rest".data,
   "graphql".data, "microservices".data]

/-- One character of `replace(/[^a-z0-9\s\-\/]/g, ' ')`, applied after
lowercasing (turbo-pipeline.js:92). -/
def cleanChar (c : Char) : Char :=
  if ('a' ≤ c ∧ c ≤ 'z') ∨ ('0' ≤ c ∧ c ≤ '9') ∨ isWsChar c = true ∨
      c = '-' ∨ c = '/' then c
  else ' '

/-- The surviving tokens of `ultraFastExtraction`
(turbo-pipeline.js:91-94): lowercase, strip punctuation, split on
whitespace, keep words of length ≥ 3 outside the stop-word set. -/
def toksOf (text : Str) : List Str :=
  (splitWs ((lowerStr text).map cleanChar)).filter
    (fun w => decide (3 ≤ w.length) && !(decide (w ∈ stopWords)))

/-- `techBoost.has(word) ? 3 : 1` (turbo-pipeline.js:100). -/
def boostOf (w : Str) : Nat := if w ∈ techBoost then 3 else 1

/-- One `freq.set(word, count * boost)` step (turbo-pipeline.js:98-102):
`count = (freq.get(word) || 0) + 1`, then the whole count is multiplied
by the boost again.  A JS `Map` keeps an existing key at its original
insertion position and appends a new key at the end. -/
def updFreq (w : Str) : List (Str × Nat) → List (Str × Nat)
  | [] => [(w, (0 + 1) * boostOf w)]
  | (k, v) :: rest =>
    if k = w then (k, (v + 1) * boostOf w) :: rest
    else (k, v) :: updFreq w rest

/-- The frequency map after the single pass over all words
(turbo-pipeline.js:97-102), as an insertion-ordered association list. -/
def buildFreq (ws : List Str) : List (Str × Nat) :=
  ws.foldl (fun m w => updFreq w m) []

/-- Stable insertion of an entry into a list sorted by descending count:
an element goes before the first strictly-smaller entry and after every
earlier equal entry processed later (see `sortDesc`). -/
def insDesc (x : Str × Nat) : List (Str × Nat) → List (Str × Nat)
  | [] => [x]
  | y :: ys => if y.2 ≤ x.2 then x :: y :: ys else y :: insDesc x ys

/-- `sort((a, b) => b[1] - a[1])` (turbo-pipeline.js:105): JS `sort` is
stable, so the result is the unique descending-by-count ordering that
keeps equal-count entries in their original (insertion) order; this
right-fold insertion sort computes exactly that ordering. -/
def sortDesc : List (Str × Nat) → List (Str × Nat)
  | [] => []
  | x :: xs => insDesc x (sortDesc xs)

/-- `Math.ceil(sorted.length * 0.35)` (turbo-pipeline.js:109-110).
The double closest to `0.35` is below `7/20` by `0.4 / 2^54`; for every
list length that can occur the rounded product never crosses an integer
from above, and at exact multiples of 20 it rounds half-to-even back to
the integer, so the JS value equals `⌈7n/20⌉`. -/
def ceil35 (n : Nat) : Nat := (7 * n + 19) / 20

/-- The keyword-set shape shared by every extraction path
(`all`, `highPriority`, `mediumPriority`, `lowPriority`, `total`);
the `timing` field is telemetry and is not modelled. -/
structure KeywordSet where
  all : List Str
  highPriority : List Str
  mediumPriority : List Str
  lowPriority : List Str
  total : Nat
deriving DecidableEq

/-- `ultraFastExtraction` (turbo-pipeline.js:74-119), the internal
fallback extractor: ranked tokens truncated to `maxKeywords`, then
tiered with `ceil(0.35·len)` high and medium counts.
`slice(a, b)` is `(drop a).take (b - a)`. -/
def ultraFastExtraction (text : Str) (maxKeywords : Nat) : KeywordSet :=
  let sorted := ((sortDesc (buildFreq (toksOf text))).map Prod.fst).take maxKeywords
  let highCount := ceil35 sorted.length
  let mediumCount := ceil35 sorted.length
  { all := sorted
    highPriority := sorted.take highCount
    mediumPriority := (sorted.drop highCount).take mediumCount
    lowPriority := sorted.drop (highCount + mediumCount)
    total := sorted.length }

/-- The generic-extractor wrapping path of `turboExtractKeywords`
(turbo-pipeline.js:44-54): given the external extractor's ranked list
`extracted.all`, the wrapper truncates `all` to `maxKeywords` but
computes `total` from the untruncated list, and caps the high/medium
tier counts at 12 and 10 (`Math.min`). -/
def wrapExtracted (extractedAll : List Str) (maxKeywords : Nat) : KeywordSet :=
  let highCount := min 12 (ceil35 extractedAll.length)
  let mediumCount := min 10 (ceil35 extractedAll.length)
  { all := extractedAll.take maxKeywords
    highPriority := extractedAll.take highCount
    mediumPriority := (extractedAll.drop highCount).take mediumCount
    lowPriority := extractedAll.drop (highCount + mediumCount)
    total := extractedAll.length }

/-! ### turbo-pipeline.js — fingerprint cache -/

/-- `text.charCodeAt(0)` (only evaluated on non-empty texts: the
extraction guard requires length ≥ 50; JS yields NaN on `""`). -/
def firstCode : Str → Nat
  | [] => 0
  | c :: _ => c.toNat

/-- `getCacheKey` (turbo-pipeline.js:20-23):
`substring(0, 500).length + '_' + length + '_' + charCodeAt(0)`.
The three decimal components joined by `'_'` are in bijection with the
triple, so the key is modelled as the triple itself. -/
def getCacheKey (t : Str) : Nat × Nat × Nat :=
  (min 500 t.length, t.length, firstCode t)

/-- The keyword cache: a JS `Map`, modelled as an insertion-ordered
association list (head = oldest entry). -/
abbrev Cache := List ((Nat × Nat × Nat) × KeywordSet)

/-- `keywordCache.get` / `.has`. -/
def lookupC : Cache → Nat × Nat × Nat → Option KeywordSet
  | [], _ => none
  | (k, v) :: rest, key => if k = key then some v else lookupC rest key

/-- `Map.set` on an existing key: the value is replaced in place, the
key keeps its insertion position. -/
def replaceC : Cache → Nat × Nat × Nat → KeywordSet → Cache
  | [], _, _ => []
  | (k, v) :: rest, key, nv =>
    if k = key then (k, nv) :: rest else (k, v) :: replaceC rest key nv

/-- The caching step of `turboExtractKeywords` (turbo-pipeline.js:60-65):
when `size >= MAX_CACHE_SIZE` (50) the single oldest key is deleted,
then the entry is `set`. -/
def cacheSet (c : Cache) (k : Nat × Nat × Nat) (v : KeywordSet) : Cache :=
  let c' := if 50 ≤ c.length then c.drop 1 else c
  if (lookupC c' k).isSome then replaceC c' k v else c' ++ [(k, v)]

/-- The empty `KeywordSet` returned for short inputs
(turbo-pipeline.js:30). -/
def emptyKS : KeywordSet := ⟨[], [], [], [], 0⟩

/-- `turboExtractKeywords` (turbo-pipeline.js:26-71) in the environment
where no external extractor is registered (`ReliableExtractor` and
`KeywordExtractor` both absent), so a cache miss runs
`ultraFastExtraction`.  Returns the result and the updated cache; the
`timing` telemetry is not modelled. -/
def turboNoExt (cache : Cache) (text : Str) (maxKeywords : Nat) :
    KeywordSet × Cache :=
  if text.length < 50 then (emptyKS, cache)
  else
    match lookupC cache (getCacheKey text) with
    | some r => (r, cache)
    | none =>
      let r := ultraFastExtraction text maxKeywords
      (r, cacheSet cache (getCacheKey text) r)

/-! ### turbo-pipeline.js — fast CV tailoring fallback -/

/-- Header spellings of `/^(SKILLS|TECHNICAL SKILLS|CORE SKILLS)[\s:]*$/im`
(turbo-pipeline.js:156). -/
def skillsHeaderNames : List Str :=
  ["SKILLS".data, "TECHNICAL SKILLS".data, "CORE SKILLS".data]

/-- Header spellings of `/^(EDUCATION|ACADEMIC)[\s:]*$/im`
(turbo-pipeline.js:168). -/
def eduHeaderNames : List Str :=
  ["EDUCATION".data, "ACADEMIC".data]

/-- A single line matches `^(name₁|...)[\s:]*$` case-insensitively:
one of the names, then only whitespace/colons up to the line end.
(The regex `[\s:]*` could also swallow whole blank lines across `\n`,
but that changes neither whether some line matches nor the match
index, which is all `exec` is used for.) -/
def lineMatchesHeader (names : List Str) (line : Str) : Bool :=
  names.any (fun n =>
    prefOf (lowerStr n) (lowerStr line) &&
    ((lowerStr line).drop n.length).all (fun c => isWsChar c || c == ':'))

/-- Scan the lines for the first header match, accumulating the
character offset of each line start (`exec(...).index` of the
multiline-anchored regex). -/
def findHdr (names : List Str) : Nat → List Str → Option Nat
  | _, [] => none
  | off, l :: ls =>
    if lineMatchesHeader names l then some off
    else findHdr names (off + l.length + 1) ls

/-- `regex.exec(text).index` for the `^(...)[\s:]*$/im` header regexes. -/
def findHeaderLine (names : List Str) (text : Str) : Option Nat :=
  findHdr names 0 (splitNl text)

/-- Result of `fastTailorFallback`.  The source also returns
`originalCV` (a copy of the input) and `stats` (the count
`injected.length`); both are derived and not modelled. -/
structure TailorResult where
  tailoredCV : Str
  injectedKeywords : List Str
deriving DecidableEq

/-- `keywords.all.filter(kw => !cvLower.includes(kw.toLowerCase()))`
(turbo-pipeline.js:145-146). -/
def missingOf (cvText : Str) (kwsAll : List Str) : List Str :=
  kwsAll.filter (fun kw => !subOf (lowerStr kw) (lowerStr cvText))

/-- `fastTailorFallback` (turbo-pipeline.js:144-186): inject up to 15
missing keywords after a skills header line, creating a new SKILLS
section (before an education header, else at the end) when no skills
header exists; when the skills header line has no following newline
(`indexOf` returns −1) the text is returned unchanged with nothing
injected. -/
def fastTailorFallback (cvText : Str) (kwsAll : List Str) : TailorResult :=
  let missing := missingOf cvText kwsAll
  if missing = [] then ⟨cvText, []⟩
  else
    match findHeaderLine skillsHeaderNames cvText with
    | some idx =>
      match idxOfNl cvText idx with
      | some insertPos =>
        let skillsToAdd := missing.take 15
        let skillsLine := '\n' :: (joinSep ", ".data skillsToAdd ++ ['\n'])
        ⟨cvText.take (insertPos + 1) ++ skillsLine ++ cvText.drop (insertPos + 1),
         skillsToAdd⟩
      | none => ⟨cvText, []⟩
    | none =>
      let skillsToAdd := missing.take 15
      let newSkillsSection :=
        "\nSKILLS\n".data ++ joinSep ", ".data skillsToAdd ++ "\n\n".data
      match findHeaderLine eduHeaderNames cvText with
      | some eIdx =>
        ⟨cvText.take eIdx ++ newSkillsSection ++ cvText.drop eIdx, skillsToAdd⟩
      | none => ⟨cvText ++ newSkillsSection, skillsToAdd⟩

/-! ### pdf-ats-turbo.js — experience keyword injection -/

/-- Bullet glyphs recognized by `formatExperienceWithKeywords`
(pdf-ats-turbo.js:176). -/
def glyphB (c : Char) : Bool := c == '-' || c == '•' || c == '*'

/-- The injection state threaded through the lines: the JS
`keywordIndex` cursor is represented by the still-unconsumed suffix
`rem` of the keyword list (`rem = keywords.drop keywordIndex`), and
`used` is the `usedKeywords` set of lowercased injected keywords. -/
structure InjState where
  rem : List Str
  used : List Str
deriving DecidableEq

/-- The inner `while` loop of `formatExperienceWithKeywords`
(pdf-ats-turbo.js:189-196): walk the remaining keywords, pushing each
one that is neither already in the bullet nor globally consumed, until
the per-bullet budget `cap` is filled; every examined keyword advances
the cursor.  Returns `(toAdd, used, rem)`. -/
def grabKws (bl : Str) (cap : Nat) :
    List Str → List Str → List Str → List Str × List Str × List Str
  | [], toAdd, used => (toAdd, used, [])
  | kw :: rest, toAdd, used =>
    if toAdd.length < cap then
      if subOf (lowerStr kw) bl = false ∧ lowerStr kw ∉ used then
        grabKws bl cap rest (toAdd ++ [kw]) (used ++ [lowerStr kw])
      else grabKws bl cap rest toAdd used
    else (toAdd, used, kw :: rest)

/-- One line of `formatExperienceWithKeywords` (pdf-ats-turbo.js:172-212).
Returns the rewritten line, the keywords injected into it, and the new
state.  A bullet line is normalized to the prefix `"-  "` (dash and two
spaces) whether or not anything is injected; non-bullet lines pass
through untouched. -/
def processLine (kwsLower : List Str) (st : InjState) (line : Str) :
    Str × List Str × InjState :=
  match trimStr line with
  | [] => (line, [], st)
  | c :: rest =>
    if glyphB c then
      let bulletContent := rest.dropWhile isWsChar
      let bl := lowerStr bulletContent
      let existing := (kwsLower.filter (fun kw => subOf kw bl)).length
      if existing < 2 ∧ st.rem ≠ [] then
        let r := grabKws bl (2 - existing) st.rem [] st.used
        let content :=
          if r.1 = [] then bulletContent
          else if bulletContent.getLast? = some '.' then
            bulletContent.dropLast ++ ", leveraging ".data ++
              joinSep " and ".data r.1 ++ ['.']
          else bulletContent ++ " utilizing ".data ++ joinSep " and ".data r.1
        ("-  ".data ++ content, r.1, ⟨r.2.2, r.2.1⟩)
      else ("-  ".data ++ bulletContent, [], st)
    else (line, [], st)

/-- `lines.map(...)` with the shared mutable state threaded through;
also returns the per-line injection log. -/
def processLines (kwsLower : List Str) :
    InjState → List Str → List Str × List (List Str) × InjState
  | st, [] => ([], [], st)
  | st, l :: ls =>
    let r := processLine kwsLower st l
    let rest := processLines kwsLower r.2.2 ls
    (r.1 :: rest.1, r.2.1 :: rest.2.1, rest.2.2)

/-- `formatExperienceWithKeywords` (pdf-ats-turbo.js:163-215). -/
def formatExperienceWithKeywords (experienceText : Str)
    (keywords : List Str) : Str :=
  if experienceText = [] then []
  else
    joinNl (processLines (keywords.map lowerStr) ⟨keywords, []⟩
      (splitNl experienceText)).1

/-- The per-line injection log of the same pass: entry `i` lists the
keywords woven into line `i` (empty for untouched lines).  Computed
from the very `processLines` run that produces
`formatExperienceWithKeywords`' output. -/
def injectionLog (experienceText : Str) (keywords : List Str) :
    List (List Str) :=
  if experienceText = [] then []
  else
    (processLines (keywords.map lowerStr) ⟨keywords, []⟩
      (splitNl experienceText)).2.1

/-! ### pdf-ats-turbo.js — skills consolidation -/

/-- Proper-noun casing table of `formatSkillsSection`
(pdf-ats-turbo.js:233-237). -/
def properNouns : List Str :=
  ["Python".data, "SQL".data, "TensorFlow".data, "Spark".data,
   "XGBoost".data, "LightGBM".data, "AWS".data, "Azure".data,
   "Google Cloud Platform".data, "Kubernetes".data, "Docker".data,
   "Terraform".data, "Apache Spark".data, "Airflow".data, "Kafka".data,
   "Snowflake".data, "Jenkins".data, "GitHub Actions".data, "Agile".data,
   "Scrum".data]

/-- `replace(/[•\-*]/g, ',')` (pdf-ats-turbo.js:225), per character. -/
def bulletToComma (c : Char) : Char :=
  if c = '•' ∨ c = '-' ∨ c = '*' then ',' else c

/-- The tokens of the existing skills text (pdf-ats-turbo.js:224-228):
bullets to commas, split on comma/space/newline, trim, keep length
2–50. -/
def skillTokens (skillsText : Str) : List Str :=
  ((splitAny [',', ' ', '\n'] (skillsText.map bulletToComma)).map trimStr).filter
    (fun s => decide (2 ≤ s.length) && decide (s.length ≤ 50))

/-- JS `Set.add`: append unless already present (exact equality),
keeping insertion order. -/
def addUnique (acc : List Str) (s : Str) : List Str :=
  if s ∈ acc then acc else acc ++ [s]

/-- The `existingSkills` set before keywords are merged in
(pdf-ats-turbo.js:220-229). -/
def baseSkills (skillsText : Str) : List Str :=
  (skillTokens skillsText).foldl addUnique []

/-- `[...properNouns].find(p => p.toLowerCase() === kwLower) || kw.toLowerCase()`
(pdf-ats-turbo.js:244-245). -/
def resolveKw (kw : Str) : Str :=
  match properNouns.find? (fun p => decide (lowerStr p = lowerStr kw)) with
  | some p => p
  | none => lowerStr kw

/-- One `keywords.forEach` step (pdf-ats-turbo.js:239-247): skip the
keyword when some set element equals it case-insensitively, else add
its resolved casing. -/
def stepSkill (acc : List Str) (kw : Str) : List Str :=
  if ∃ s ∈ acc, lowerStr s = lowerStr kw then acc
  else addUnique acc (resolveKw kw)

/-- The merged skills set, in insertion order. -/
def consolidate (base : List Str) (kws : List Str) : List Str :=
  kws.foldl stepSkill base

/-- `formatSkillsSection` (pdf-ats-turbo.js:218-251). -/
def formatSkillsSection (skillsText : Str) (keywords : List Str) : Str :=
  joinSep ", ".data (consolidate (baseSkills skillsText) keywords)

/-! ### A ranking function modelled from the spec's words (for C3) -/

/-- First-occurrence deduplication, for the spec-modelled ranking. -/
def dedupFirst (ws : List Str) : List Str := ws.foldl addUnique []

/-- Modelled from the spec (§4.2 step 3-4), NOT from the source, for
comparison with `ultraFastExtraction`: each surviving token is scored
by its plain occurrence count multiplied once by the 3× boost when it
is in the allowlist, then the tokens are sorted descending by that
score with stable ties and truncated to `maxKeywords`.  (The spec's
multi-word-substring clause is irrelevant for the comparison inputs
used below, which contain no multi-word allowlist phrase.) -/
def specRankedAll (text : Str) (maxKeywords : Nat) : List Str :=
  let ws := toksOf text
  let freqPlain := (dedupFirst ws).map (fun w => (w, ws.count w * boostOf w))
  ((sortDesc freqPlain).map Prod.fst).take maxKeywords

/-! ### Verification-layer helpers for the frequency table -/

/-- Association-list lookup in the frequency map (JS `freq.get`). -/
def alookup (w : Str) : List (Str × Nat) → Option Nat
  | [] => none
  | (k, v) :: rest => if k = w then some v else alookup w rest

/-- `n` iterations of the per-occurrence update `s ↦ (s+1)·b` that
`updFreq` applies to a word whose boost factor is `b`. -/
def scoreIter (b : Nat) : Nat → Nat → Nat
  | s, 0 => s
  | s, n + 1 => scoreIter b ((s + 1) * b) n

/-! ### Concrete fixtures used by witnesses and counterexamples -/

/-- 51 job-description texts with pairwise distinct fingerprints (their
lengths differ) that all pass the length-≥-50 extraction guard. -/
def c5text (i : Nat) : Str := List.replicate (50 + i) 'a'

/-- The cache after the 51 extraction calls, starting empty. -/
def c5final : Cache :=
  ((List.range 51).map c5text).foldl (fun c t => (turboNoExt c t 35).2) []

/-- 35 distinct one-character keywords, standing for the ranked list an
external `KeywordExtractor` returns for a 35-keyword request. -/
def exSamp : List Str := (List.range 35).map (fun i => [Char.ofNat (65 + i)])

/-- 16 keywords, none of which occurs in the CV `SKILLS\nJava\n`: one
more than a single tailoring pass will inject. -/
def c4kws : List Str :=
  ["kw01".data, "kw02".data, "kw03".data, "kw04".data, "kw05".data,
   "kw06".data, "kw07".data, "kw08".data, "kw09".data, "kw10".data,
   "kw11".data, "kw12".data, "kw13".data, "kw14".data, "kw15".data,
   "kw16".data]

-- A few sanity checks of the text model.
example : trimStr "  ab ".data = "ab".data := by decide
example : subOf "ab".data "xaby".data = true := by decide
example : subOf "ab".data "axby".data = false := by decide
example : splitNl "a\nb".data = ["a".data, "b".data] := by decide
example : splitWs " a  bc ".data = ["a".data, "bc".data] := by decide
example : splitAny [','] "a,,b".data = ["a".data, [], "b".data] := by decide
example : idxOfNl "ab\nc".data 1 = some 2 := by decide
example : idxOfNl "ab\nc".data 3 = none := by decide

-- Sanity checks of the extraction model: the compounding boost
-- (python twice: (0+1)*3 = 3, then (3+1)*3 = 12) outranks a plain
-- word occurring seven times.
example : buildFreq (toksOf "python python alpha".data) =
    [("python".data, 12), ("alpha".data, 1)] := by decide
example :
    (ultraFastExtraction
      "python python alpha alpha alpha alpha alpha alpha alpha".data
      35).all = ["python".data, "alpha".data] := by decide
example : ceil35 20 = 7 ∧ ceil35 35 = 13 ∧ ceil35 3 = 2 := by decide

-- Sanity checks of tailoring and injection.
example :
    fastTailorFallback "SKILLS\nJava\n".data ["python".data] =
      ⟨"SKILLS\n\npython\nJava\n".data, ["python".data]⟩ := by decide
example :
    formatExperienceWithKeywords "- Built data pipelines.".data
      ["Spark".data, "Kafka".data] =
      "-  Built data pipelines, leveraging Spark and Kafka.".data := by decide
example :
    formatSkillsSection "Java, SQL".data
      ["Python".data, "AWS".data, "Docker".data, "Kubernetes".data] =
      "Java, SQL, Python, AWS, Docker, Kubernetes".data := by decide
example :
    specRankedAll "python python alpha alpha alpha".data 35 =
      ["python".data, "alpha".data] := by decide
example :
    (ultraFastExtraction
        "python python alpha alpha alpha alpha alpha alpha alpha".data 35).all ≠
      specRankedAll
        "python python alpha alpha alpha alpha alpha alpha alpha".data 35 := by
  decide


/-! ### Character and lowercasing lemmas -/

theorem toNat_ofNat_valid (n : Nat) (h : n < 55296) :
    (Char.ofNat n).toNat = n := by
  have hv : n.isValidChar := Or.inl h
  unfold Char.ofNat
  rw [dif_pos hv]
  rfl

theorem toLower_def (c : Char) :
    c.toLower =
      if 65 ≤ c.toNat ∧ c.toNat ≤ 90 then Char.ofNat (c.toNat + 32) else c :=
  rfl

theorem toLower_toLower (c : Char) : c.toLower.toLower = c.toLower := by
  rw [toLower_def c]
  by_cases h : 65 ≤ c.toNat ∧ c.toNat ≤ 90
  · rw [if_pos h, toLower_def]
    have hn : (Char.ofNat (c.toNat + 32)).toNat = c.toNat + 32 :=
      toNat_ofNat_valid _ (by omega)
    rw [if_neg (by omega)]
  · rw [if_neg h, toLower_def, if_neg h]

theorem toLower_eq_nl (c : Char) (h : c.toLower = '\n') : c = '\n' := by
  rw [toLower_def] at h
  by_cases hc : 65 ≤ c.toNat ∧ c.toNat ≤ 90
  · rw [if_pos hc] at h
    have hn : (Char.ofNat (c.toNat + 32)).toNat = c.toNat + 32 :=
      toNat_ofNat_valid _ (by omega)
    have : ('\n' : Char).toNat = 10 := by decide
    rw [h] at hn
    omega
  · rwa [if_neg hc] at h

theorem lowerStr_append (a b : Str) :
    lowerStr (a ++ b) = lowerStr a ++ lowerStr b :=
  List.map_append _ a b

theorem lowerStr_length (s : Str) : (lowerStr s).length = s.length :=
  List.length_map s _

theorem lowerStr_idem (s : Str) : lowerStr (lowerStr s) = lowerStr s := by
  induction s with
  | nil => rfl
  | cons c t ih =>
    simp only [lowerStr, List.map_cons] at ih ⊢
    rw [toLower_toLower]
    exact congrArg _ ih

theorem nl_mem_of_mem_lowerStr (p : Str) (h : '\n' ∈ lowerStr p) :
    '\n' ∈ p := by
  rcases List.mem_map.mp h with ⟨c, hc, he⟩
  rwa [toLower_eq_nl c he] at hc

theorem lowerStr_cons (c : Char) (s : Str) :
    lowerStr (c :: s) = c.toLower :: lowerStr s := rfl

theorem toLower_nl : ('\n' : Char).toLower = '\n' := by decide
/-! ### Substring lemmas -/

theorem prefOf_self_append (p r : Str) : prefOf p (p ++ r) = true := by
  induction p with
  | nil => rfl
  | cons c t ih => simp [prefOf, ih]

theorem prefOf_refl (p : Str) : prefOf p p = true := by
  have := prefOf_self_append p []
  rwa [List.append_nil] at this

theorem prefOf_append_extend (p l m : Str) (h : prefOf p l = true) :
    prefOf p (l ++ m) = true := by
  induction p generalizing l with
  | nil => rfl
  | cons c t ih =>
    cases l with
    | nil => simp [prefOf] at h
    | cons x xs =>
      simp only [prefOf, Bool.and_eq_true, decide_eq_true_eq] at h
      simp only [List.cons_append, prefOf, Bool.and_eq_true, decide_eq_true_eq]
      exact ⟨h.1, ih xs h.2⟩

theorem subOf_of_prefOf (p l : Str) (h : prefOf p l = true) :
    subOf p l = true := by
  cases l with
  | nil => exact h
  | cons c t => simp [subOf, h]

theorem subOf_cons (p : Str) (c : Char) (l : Str) (h : subOf p l = true) :
    subOf p (c :: l) = true := by
  simp [subOf, h]

theorem subOf_append_left (p a b : Str) (h : subOf p a = true) :
    subOf p (a ++ b) = true := by
  induction a with
  | nil =>
    cases p with
    | nil => exact subOf_of_prefOf _ _ rfl
    | cons c t => simp [subOf, prefOf] at h
  | cons x xs ih =>
    simp only [subOf, Bool.or_eq_true] at h
    rcases h with h | h
    · exact subOf_of_prefOf _ _ (prefOf_append_extend _ _ _ h)
    · exact subOf_cons _ _ _ (ih h)

theorem subOf_append_right (p a b : Str) (h : subOf p b = true) :
    subOf p (a ++ b) = true := by
  induction a with
  | nil => exact h
  | cons x xs ih => exact subOf_cons _ _ _ ih

theorem prefOf_map (f : Char → Char) (p l : Str) (h : prefOf p l = true) :
    prefOf (p.map f) (l.map f) = true := by
  induction p generalizing l with
  | nil => rfl
  | cons c t ih =>
    cases l with
    | nil => simp [prefOf] at h
    | cons x xs =>
      simp only [prefOf, Bool.and_eq_true, decide_eq_true_eq] at h
      simp only [List.map_cons, prefOf, Bool.and_eq_true, decide_eq_true_eq]
      exact ⟨by rw [h.1], ih xs h.2⟩

theorem subOf_map (f : Char → Char) (p l : Str) (h : subOf p l = true) :
    subOf (p.map f) (l.map f) = true := by
  induction l with
  | nil =>
    cases p with
    | nil => rfl
    | cons c t => simp [subOf, prefOf] at h
  | cons x xs ih =>
    simp only [subOf, Bool.or_eq_true] at h
    rcases h with h | h
    · exact subOf_of_prefOf _ _ (prefOf_map f _ _ h)
    · exact subOf_cons _ _ _ (ih h)

theorem subOf_joinSep_of_mem (sep x : Str) (L : List Str) (h : x ∈ L) :
    subOf x (joinSep sep L) = true := by
  induction L with
  | nil => simp at h
  | cons y ys ih =>
    rcases List.mem_cons.mp h with rfl | hmem
    · cases ys with
      | nil => exact subOf_of_prefOf _ _ (prefOf_refl x)
      | cons z zs =>
        show subOf x (x ++ sep ++ joinSep sep (z :: zs)) = true
        rw [List.append_assoc]
        exact subOf_of_prefOf _ _ (prefOf_self_append _ _)
    · cases ys with
      | nil => simp at hmem
      | cons z zs =>
        show subOf x (y ++ sep ++ joinSep sep (z :: zs)) = true
        rw [List.append_assoc]
        exact subOf_append_right _ _ _ (subOf_append_right _ _ _ (ih hmem))

theorem prefOf_append_split (p a b : Str) (h : prefOf p (a ++ b) = true) :
    prefOf p a = true ∨ ∃ p2, p = a ++ p2 ∧ prefOf p2 b = true := by
  induction a generalizing p with
  | nil => exact Or.inr ⟨p, rfl, h⟩
  | cons x xs ih =>
    cases p with
    | nil => exact Or.inl rfl
    | cons y ys =>
      simp only [List.cons_append, prefOf, Bool.and_eq_true,
        decide_eq_true_eq] at h
      rcases ih ys h.2 with h1 | ⟨p2, rfl, hp⟩
      · exact Or.inl (by simp [prefOf, h.1, h1])
      · exact Or.inr ⟨p2, by rw [h.1]; rfl, hp⟩

theorem subOf_append_cases (p a b : Str) (h : subOf p (a ++ b) = true) :
    subOf p a = true ∨ subOf p b = true ∨
      ∃ p1 p2, p = p1 ++ p2 ∧ p1 ≠ [] ∧ p2 ≠ [] ∧ ∃ t, a = t ++ p1 := by
  induction a with
  | nil => exact Or.inr (Or.inl h)
  | cons x xs ih =>
    simp only [List.cons_append, subOf, Bool.or_eq_true] at h
    rcases h with h | h
    · rcases prefOf_append_split p (x :: xs) b h with h1 | ⟨p2, rfl, hp⟩
      · exact Or.inl (subOf_of_prefOf _ _ h1)
      · cases p2 with
        | nil =>
          exact Or.inl (subOf_of_prefOf _ _
            (by rw [List.append_nil]; exact prefOf_refl _))
        | cons q qs =>
          exact Or.inr (Or.inr ⟨x :: xs, q :: qs, rfl, by simp, by simp,
            [], rfl⟩)
    · rcases ih h with h1 | h1 | ⟨p1, p2, hp, hne1, hne2, t, ht⟩
      · exact Or.inl (subOf_cons _ _ _ h1)
      · exact Or.inr (Or.inl h1)
      · exact Or.inr (Or.inr ⟨p1, p2, hp, hne1, hne2, x :: t, by rw [ht]; rfl⟩)

theorem mem_of_suffix_concat (t p1 A : Str) (c : Char)
    (h : t ++ p1 = A ++ [c]) (hne : p1 ≠ []) : c ∈ p1 := by
  have hr : p1.reverse ++ t.reverse = c :: A.reverse := by
    have := congrArg List.reverse h
    simpa [List.reverse_append] using this
  rcases List.exists_cons_of_ne_nil
      (fun he => hne (by simpa using congrArg List.reverse he) :
        p1.reverse ≠ []) with ⟨d, ds, hds⟩
  rw [hds, List.cons_append] at hr
  have hd : d = c := (List.cons.injEq _ _ _ _).mp hr |>.1
  have : d ∈ p1.reverse := by rw [hds]; exact List.mem_cons_self _ _
  rw [hd] at this
  exact List.mem_reverse.mp this

/-! ### Branch analysis of fastTailorFallback -/

theorem fastTailor_injected_cases (cvText : Str) (kwsAll : List Str) :
    (fastTailorFallback cvText kwsAll).injectedKeywords = [] ∨
      (fastTailorFallback cvText kwsAll).injectedKeywords =
        (missingOf cvText kwsAll).take 15 := by
  simp only [fastTailorFallback]
  by_cases hm : missingOf cvText kwsAll = []
  · rw [if_pos hm]
    exact Or.inl rfl
  · rw [if_neg hm]
    cases hf : findHeaderLine skillsHeaderNames cvText with
    | some idx =>
      dsimp only
      cases hni : idxOfNl cvText idx with
      | some insertPos => exact Or.inr rfl
      | none => exact Or.inl rfl
    | none =>
      dsimp only
      cases he : findHeaderLine eduHeaderNames cvText with
      | some eIdx => exact Or.inr rfl
      | none => exact Or.inr rfl

/-- C10: one invocation of the internal tailoring fallback injects at
most 15 keywords, and what it injects is exactly the first (up to) 15
missing keywords — keywords beyond those are left uninjected in that
pass. -/
theorem inject_at_most_15 (cvText : Str) (kwsAll : List Str) :
    (fastTailorFallback cvText kwsAll).injectedKeywords.length ≤ 15 ∧
    ((fastTailorFallback cvText kwsAll).injectedKeywords = [] ∨
      (fastTailorFallback cvText kwsAll).injectedKeywords =
        (missingOf cvText kwsAll).take 15) := by
  refine ⟨?_, fastTailor_injected_cases cvText kwsAll⟩
  rcases fastTailor_injected_cases cvText kwsAll with h | h <;> rw [h]
  · simp
  · exact List.length_take_le 15 _

theorem take15_ne_nil (l : List Str) (h : l ≠ []) : l.take 15 ≠ [] := by
  cases l with
  | nil => exact absurd rfl h
  | cons x xs => simp

theorem subOf_skills_header (j : Str) :
    subOf "SKILLS\n".data
      ("\nSKILLS\n".data ++ j ++ "\n\n".data) = true := by
  have h0 : subOf "SKILLS\n".data "\nSKILLS\n".data = true := by decide
  exact subOf_append_left _ _ _ (subOf_append_left _ _ _ h0)

/-- C9 (counterexample): with no skills header and a missing keyword,
`fastTailorFallback` does NOT return the original text plus an empty
injected list — it synthesizes a SKILLS section and reports the
keyword as injected. -/
theorem no_anchor_break :
    (fastTailorFallback "EDUCATION\nBSc\n".data
        ["python".data]).injectedKeywords ≠ [] ∧
    (fastTailorFallback "EDUCATION\nBSc\n".data
        ["python".data]).tailoredCV ≠ "EDUCATION\nBSc\n".data := by decide

/-- C9 (amended): for every CV text with no recognized skills-section
header and every keyword set with missing keywords, the internal
tailoring fallback does not fail: it returns a result whose injected
list is exactly the first (up to) 15 missing keywords (in particular it
is non-empty, not empty as the spec sentence claims), and whose text
strictly grew by a synthesized `SKILLS` section. -/
theorem no_anchor_amended (cvText : Str) (kwsAll : List Str)
    (hno : findHeaderLine skillsHeaderNames cvText = none)
    (hmiss : missingOf cvText kwsAll ≠ []) :
    (fastTailorFallback cvText kwsAll).injectedKeywords =
      (missingOf cvText kwsAll).take 15 ∧
    (fastTailorFallback cvText kwsAll).injectedKeywords ≠ [] ∧
    subOf "SKILLS\n".data
      (fastTailorFallback cvText kwsAll).tailoredCV = true ∧
    cvText.length < (fastTailorFallback cvText kwsAll).tailoredCV.length := by
  have hsec : subOf "SKILLS\n".data
      ("\nSKILLS\n".data ++
        joinSep ", ".data ((missingOf cvText kwsAll).take 15) ++
        "\n\n".data) = true := subOf_skills_header _
  simp only [fastTailorFallback]
  rw [if_neg hmiss, hno]
  dsimp only
  cases he : findHeaderLine eduHeaderNames cvText with
  | some eIdx =>
    refine ⟨rfl, take15_ne_nil _ hmiss, ?_, ?_⟩
    · exact subOf_append_left _ _ _ (subOf_append_right _ _ _ hsec)
    · have hsplit := congrArg List.length (List.take_append_drop eIdx cvText)
      simp only [List.length_append, List.length_cons,
        List.length_nil] at hsplit ⊢
      omega
  | none =>
    refine ⟨rfl, take15_ne_nil _ hmiss, ?_, ?_⟩
    · exact subOf_append_right _ _ _ hsec
    · simp only [List.length_append, List.length_cons, List.length_nil]
      omega

/-- C9 (witness): the amended theorem applied to the concrete CV
`EDUCATION\nBSc\n` and keyword `python`. -/
theorem no_anchor_amended_witness :
    (findHeaderLine skillsHeaderNames "EDUCATION\nBSc\n".data = none ∧
      missingOf "EDUCATION\nBSc\n".data ["python".data] ≠ []) ∧
    ((fastTailorFallback "EDUCATION\nBSc\n".data
        ["python".data]).injectedKeywords =
      (missingOf "EDUCATION\nBSc\n".data ["python".data]).take 15 ∧
    (fastTailorFallback "EDUCATION\nBSc\n".data
        ["python".data]).injectedKeywords ≠ [] ∧
    subOf "SKILLS\n".data
      (fastTailorFallback "EDUCATION\nBSc\n".data
        ["python".data]).tailoredCV = true ∧
    ("EDUCATION\nBSc\n".data).length <
      (fastTailorFallback "EDUCATION\nBSc\n".data
        ["python".data]).tailoredCV.length) :=
  ⟨⟨by decide, by decide⟩,
    no_anchor_amended "EDUCATION\nBSc\n".data ["python".data]
      (by decide) (by decide)⟩

/-- C7 (counterexample): the claim's exact output line is wrong — the
injection pass rewrites the bullet prefix to a dash followed by TWO
spaces, so the result is not `- Built data pipelines, leveraging Spark
and Kafka.` (single space). -/
theorem bullet_scenario_break :
    formatExperienceWithKeywords "- Built data pipelines.".data
        ["Spark".data, "Kafka".data] ≠
      "- Built data pipelines, leveraging Spark and Kafka.".data := by decide

/-- C7 (amended): the pass on `- Built data pipelines.` with unconsumed
keywords Spark, Kafka yields exactly `-  Built data pipelines,
leveraging Spark and Kafka.` — the bullet glyph is normalized to `-`
plus two spaces; a trailing period is replaced by the `, leveraging kw1
and kw2.` clause, and without a trailing period ` utilizing kw1 and
kw2` is appended (both still with the `-  ` prefix); a single selected
keyword yields a one-term clause. -/
theorem bullet_scenario_amended :
    formatExperienceWithKeywords "- Built data pipelines.".data
        ["Spark".data, "Kafka".data] =
      "-  Built data pipelines, leveraging Spark and Kafka.".data ∧
    formatExperienceWithKeywords "- Built data pipelines".data
        ["Spark".data, "Kafka".data] =
      "-  Built data pipelines utilizing Spark and Kafka".data ∧
    formatExperienceWithKeywords "- Deployed the service.".data
        ["Docker".data] =
      "-  Deployed the service, leveraging Docker.".data := by decide

/-! ### Cache lemmas -/

theorem replaceC_length (c : Cache) (k : Nat × Nat × Nat) (v : KeywordSet) :
    (replaceC c k v).length = c.length := by
  induction c with
  | nil => rfl
  | cons h t ih =>
    obtain ⟨hk, hv⟩ := h
    simp only [replaceC]
    split
    · simp
    · simp [ih]

theorem lookupC_drop_one_none (c : Cache) (k : Nat × Nat × Nat)
    (h : lookupC c k = none) : lookupC (c.drop 1) k = none := by
  cases c with
  | nil => rfl
  | cons x t =>
    obtain ⟨xk, xv⟩ := x
    simp only [lookupC] at h
    by_cases he : xk = k
    · rw [if_pos he] at h; exact absurd h (by simp)
    · rw [if_neg he] at h; simpa using h

theorem lookupC_append_self (c : Cache) (k : Nat × Nat × Nat)
    (v : KeywordSet) (h : lookupC c k = none) :
    lookupC (c ++ [(k, v)]) k = some v := by
  induction c with
  | nil => simp [lookupC]
  | cons x t ih =>
    obtain ⟨xk, xv⟩ := x
    simp only [lookupC] at h ⊢
    by_cases he : xk = k
    · rw [if_pos he] at h; exact absurd h (by simp)
    · rw [if_neg he] at h ⊢
      exact ih h

theorem lookupC_cacheSet_self (c : Cache) (k : Nat × Nat × Nat)
    (v : KeywordSet) (h : lookupC c k = none) :
    lookupC (cacheSet c k v) k = some v := by
  simp only [cacheSet]
  have h' : lookupC (if 50 ≤ c.length then c.drop 1 else c) k = none := by
    split
    · exact lookupC_drop_one_none c k h
    · exact h
  rw [h']
  simp only [Option.isSome_none, Bool.false_eq_true, if_false]
  exact lookupC_append_self _ k v h'

theorem cacheSet_length_le (c : Cache) (k : Nat × Nat × Nat)
    (v : KeywordSet) (h : c.length ≤ 50) : (cacheSet c k v).length ≤ 50 := by
  simp only [cacheSet]
  by_cases h50 : 50 ≤ c.length
  · rw [if_pos h50]
    split
    · rw [replaceC_length]
      simp
      omega
    · simp
      omega
  · rw [if_neg h50]
    split
    · rw [replaceC_length]; omega
    · simp; omega

theorem cacheSet_length_fresh (c : Cache) (k : Nat × Nat × Nat)
    (v : KeywordSet) (hfresh : lookupC c k = none) (h : c.length ≤ 50) :
    (cacheSet c k v).length = min (c.length + 1) 50 := by
  simp only [cacheSet]
  by_cases h50 : 50 ≤ c.length
  · rw [if_pos h50]
    rw [lookupC_drop_one_none c k hfresh]
    simp only [Option.isSome_none, Bool.false_eq_true, if_false,
      List.length_append, List.length_drop, List.length_cons,
      List.length_nil]
    omega
  · rw [if_neg h50]
    rw [hfresh]
    simp only [Option.isSome_none, Bool.false_eq_true, if_false,
      List.length_append, List.length_cons, List.length_nil]
    omega

theorem turbo_cache_length (cache : Cache) (t : Str) (m : Nat)
    (h : cache.length ≤ 50) : ((turboNoExt cache t m).2).length ≤ 50 := by
  simp only [turboNoExt]
  split
  · exact h
  · cases hl : lookupC cache (getCacheKey t) with
    | some r => exact h
    | none => exact cacheSet_length_le _ _ _ h

/-- C5: the keyword cache never exceeds 50 entries (preserved by every
extraction call and by every caching step, which evicts exactly one —
the oldest — key when full), and concretely, after 51 extraction calls
with pairwise-distinct fingerprints starting from the empty cache, the
cache holds exactly 50 entries, the first-inserted key is absent and
the other 50 keys are all present. -/
theorem cache_fifo_bound :
    (∀ (cache : Cache) (text : Str) (maxK : Nat), cache.length ≤ 50 →
      ((turboNoExt cache text maxK).2).length ≤ 50) ∧
    (∀ (c : Cache) (k : Nat × Nat × Nat) (v : KeywordSet),
      lookupC c k = none → c.length ≤ 50 →
      (cacheSet c k v).length = min (c.length + 1) 50) ∧
    c5final.length = 50 ∧
    lookupC c5final (getCacheKey (c5text 0)) = none ∧
    ((List.range 51).drop 1).all
      (fun i => (lookupC c5final (getCacheKey (c5text i))).isSome) = true :=
  ⟨turbo_cache_length, cacheSet_length_fresh, by decide, by decide, by decide⟩

/-- C5 (witness): the bound-preservation parts applied at concrete
inputs — one extraction call on the empty cache, and one fresh `set` on
the empty cache growing it to `min 1 50` entries. -/
theorem cache_fifo_bound_witness :
    (([] : Cache).length ≤ 50 ∧
      ((turboNoExt [] (c5text 0) 35).2).length ≤ 50) ∧
    (lookupC [] (getCacheKey (c5text 0)) = none ∧
      (cacheSet [] (getCacheKey (c5text 0)) emptyKS).length = min (0 + 1) 50) :=
  ⟨⟨by decide, cache_fifo_bound.1 [] (c5text 0) 35 (by decide)⟩,
    ⟨by decide, cache_fifo_bound.2.1 [] (getCacheKey (c5text 0)) emptyKS
      (by decide) (by decide)⟩⟩

/-- C6: two different job-description texts agreeing in total length,
bounded-prefix (500-char) length and first-character code get the same
fingerprint; after a first (uncached) extraction of `t1`, the
extraction call on `t2` is a cache hit: it returns `t1`'s cached
KeywordSet (the extraction of `t1`, not of `t2`) and leaves the cache
untouched. -/
theorem fingerprint_collision_hit (t1 t2 : Str) (cache : Cache)
    (hne : t1 ≠ t2)
    (hlen50 : 50 ≤ t1.length)
    (hlen : t1.length = t2.length)
    (hpre : min 500 t1.length = min 500 t2.length)
    (hfc : firstCode t1 = firstCode t2)
    (hfresh : lookupC cache (getCacheKey t1) = none) :
    getCacheKey t1 = getCacheKey t2 ∧
    (turboNoExt cache t1 35).1 = ultraFastExtraction t1 35 ∧
    (turboNoExt (turboNoExt cache t1 35).2 t2 35).1 =
      (turboNoExt cache t1 35).1 ∧
    (turboNoExt (turboNoExt cache t1 35).2 t2 35).2 =
      (turboNoExt cache t1 35).2 := by
  have hkey : getCacheKey t1 = getCacheKey t2 := by
    unfold getCacheKey
    rw [hpre, hlen, hfc]
  have h1 : turboNoExt cache t1 35 =
      (ultraFastExtraction t1 35,
        cacheSet cache (getCacheKey t1) (ultraFastExtraction t1 35)) := by
    simp only [turboNoExt]
    rw [if_neg (by omega), hfresh]
  have hhit : lookupC (cacheSet cache (getCacheKey t1)
        (ultraFastExtraction t1 35)) (getCacheKey t2) =
      some (ultraFastExtraction t1 35) := by
    rw [← hkey]
    exact lookupC_cacheSet_self _ _ _ hfresh
  have h2 : turboNoExt (cacheSet cache (getCacheKey t1)
        (ultraFastExtraction t1 35)) t2 35 =
      (ultraFastExtraction t1 35,
        cacheSet cache (getCacheKey t1) (ultraFastExtraction t1 35)) := by
    simp only [turboNoExt]
    rw [if_neg (by omega), hhit]
  refine ⟨hkey, ?_, ?_, ?_⟩
  · rw [h1]
  · rw [h1, h2]
  · rw [h1, h2]

/-- C6 (witness): the theorem applied to two concrete different texts of
length 50 sharing their first character, starting from the empty cache.
-/
theorem fingerprint_collision_hit_witness :
    (List.replicate 50 'a' ≠ 'a' :: List.replicate 49 'b' ∧
      50 ≤ (List.replicate 50 'a' : Str).length ∧
      (List.replicate 50 'a' : Str).length =
        ('a' :: List.replicate 49 'b' : Str).length ∧
      min 500 (List.replicate 50 'a' : Str).length =
        min 500 ('a' :: List.replicate 49 'b' : Str).length ∧
      firstCode (List.replicate 50 'a') =
        firstCode ('a' :: List.replicate 49 'b') ∧
      lookupC [] (getCacheKey (List.replicate 50 'a')) = none) ∧
    (getCacheKey (List.replicate 50 'a') =
        getCacheKey ('a' :: List.replicate 49 'b') ∧
      (turboNoExt [] (List.replicate 50 'a') 35).1 =
        ultraFastExtraction (List.replicate 50 'a') 35 ∧
      (turboNoExt (turboNoExt [] (List.replicate 50 'a') 35).2
          ('a' :: List.replicate 49 'b') 35).1 =
        (turboNoExt [] (List.replicate 50 'a') 35).1 ∧
      (turboNoExt (turboNoExt [] (List.replicate 50 'a') 35).2
          ('a' :: List.replicate 49 'b') 35).2 =
        (turboNoExt [] (List.replicate 50 'a') 35).2) :=
  ⟨⟨by decide, by decide, by decide, by decide, by decide, by decide⟩,
    fingerprint_collision_hit (List.replicate 50 'a')
      ('a' :: List.replicate 49 'b') [] (by decide) (by decide) (by decide)
      (by decide) (by decide) (by decide)⟩

/-! ### Injection-pass invariants (C1) -/

theorem grabKws_spec (bl : Str) (cap : Nat) (rem : List Str) :
    ∀ (toAdd used : List Str), used.Nodup →
    ∃ δ : List Str,
      (grabKws bl cap rem toAdd used).1 = toAdd ++ δ ∧
      (grabKws bl cap rem toAdd used).2.1 = used ++ δ.map lowerStr ∧
      ((grabKws bl cap rem toAdd used).2.1).Nodup ∧
      (grabKws bl cap rem toAdd used).1.length ≤ max toAdd.length cap ∧
      δ.length + (grabKws bl cap rem toAdd used).2.2.length ≤ rem.length := by
  induction rem with
  | nil =>
    intro toAdd used hnd
    exact ⟨[], by simp [grabKws], by simp [grabKws], by simpa [grabKws] using hnd,
      by simp [grabKws], by simp [grabKws]⟩
  | cons kw rest ih =>
    intro toAdd used hnd
    simp only [grabKws]
    by_cases hlen : toAdd.length < cap
    · rw [if_pos hlen]
      by_cases hc : subOf (lowerStr kw) bl = false ∧ lowerStr kw ∉ used
      · rw [if_pos hc]
        have hnd' : (used ++ [lowerStr kw]).Nodup := by
          rw [List.nodup_append]
          exact ⟨hnd, List.nodup_singleton _,
            fun a ha hb => by
              simp only [List.mem_singleton] at hb
              exact hc.2 (hb ▸ ha)⟩
        obtain ⟨δ, h1, h2, h3, h4, h5⟩ := ih (toAdd ++ [kw]) (used ++ [lowerStr kw]) hnd'
        refine ⟨kw :: δ, ?_, ?_, h3, ?_, ?_⟩
        · rw [h1]; simp
        · rw [h2]; simp
        · have hlen1 : (toAdd ++ [kw]).length = toAdd.length + 1 := by simp
          rw [hlen1] at h4
          have hm1 : max (toAdd.length + 1) cap = cap :=
            Nat.max_eq_right (by omega)
          have hm2 : max toAdd.length cap = cap :=
            Nat.max_eq_right (by omega)
          rw [hm1] at h4
          rw [hm2]
          exact h4
        · simp only [List.length_cons]
          omega
      · rw [if_neg hc]
        obtain ⟨δ, h1, h2, h3, h4, h5⟩ := ih toAdd used hnd
        refine ⟨δ, h1, h2, h3, h4, ?_⟩
        simp only [List.length_cons]
        omega
    · rw [if_neg hlen]
      exact ⟨[], by simp, by simp, hnd, by simp, by simp⟩

theorem processLine_spec (kl : List Str) (st : InjState) (line : Str)
    (hnd : st.used.Nodup) :
    (processLine kl st line).2.1.length ≤ 2 ∧
    (processLine kl st line).2.2.used =
      st.used ++ ((processLine kl st line).2.1).map lowerStr ∧
    (processLine kl st line).2.2.used.Nodup ∧
    (processLine kl st line).2.1.length +
      (processLine kl st line).2.2.rem.length ≤ st.rem.length := by
  unfold processLine
  cases htr : trimStr line with
  | nil => exact ⟨by simp, by simp, hnd, by simp⟩
  | cons c rest =>
    dsimp only
    by_cases hg : glyphB c = true
    · rw [if_pos hg]
      set bulletContent := rest.dropWhile isWsChar with hb
      set bl := lowerStr bulletContent with hbl
      set existing := (kl.filter (fun kw => subOf kw bl)).length with hex
      by_cases hcond : existing < 2 ∧ st.rem ≠ []
      · rw [if_pos hcond]
        obtain ⟨δ, h1, h2, h3, h4, h5⟩ :=
          grabKws_spec bl (2 - existing) st.rem [] st.used hnd
        have hδ : (grabKws bl (2 - existing) st.rem [] st.used).1 = δ := by
          simpa using h1
        refine ⟨?_, ?_, ?_, ?_⟩
        · simp only []
          rw [hδ] at h4 ⊢
          simp only [List.length_nil] at h4
          omega
        · simp only []
          rw [h2, hδ]
        · exact h3
        · rw [hδ]
          exact h5
      · rw [if_neg hcond]
        exact ⟨by simp, by simp, hnd, by simp⟩
    · rw [if_neg hg]
      exact ⟨by simp, by simp, hnd, by simp⟩

theorem processLines_spec (kl : List Str) (lines : List Str) :
    ∀ st : InjState, st.used.Nodup →
    (∀ l ∈ (processLines kl st lines).2.1, l.length ≤ 2) ∧
    (processLines kl st lines).2.2.used =
      st.used ++ ((processLines kl st lines).2.1.flatten).map lowerStr ∧
    (processLines kl st lines).2.2.used.Nodup ∧
    (processLines kl st lines).2.1.flatten.length +
      (processLines kl st lines).2.2.rem.length ≤ st.rem.length := by
  induction lines with
  | nil =>
    intro st hnd
    exact ⟨by simp [processLines], by simp [processLines], by simpa [processLines] using hnd,
      by simp [processLines]⟩
  | cons l ls ih =>
    intro st hnd
    obtain ⟨p1, p2, p3, p4⟩ := processLine_spec kl st l hnd
    obtain ⟨q1, q2, q3, q4⟩ := ih (processLine kl st l).2.2 p3
    simp only [processLines]
    refine ⟨?_, ?_, q3, ?_⟩
    · intro x hx
      rcases List.mem_cons.mp hx with rfl | hx
      · exact p1
      · exact q1 x hx
    · rw [q2, p2]
      simp [List.map_append, List.append_assoc]
    · simp only [List.flatten_cons, List.length_append]
      omega

/-- C1: in one experience-injection pass with a list of distinct
keywords, every line gains at most 2 injected keywords, no keyword is
injected twice (across all bullets, even case-insensitively), and the
total number of injected keywords never exceeds the number of keywords
supplied. -/
theorem injection_pass_caps (text : Str) (kws : List Str)
    (hnd : kws.Nodup) :
    (∀ l ∈ injectionLog text kws, l.length ≤ 2) ∧
    (((injectionLog text kws).flatten).map lowerStr).Nodup ∧
    (injectionLog text kws).flatten.length ≤ kws.length := by
  unfold injectionLog
  split
  · simp
  · obtain ⟨h1, h2, h3, h4⟩ :=
      processLines_spec (kws.map lowerStr) (splitNl text) ⟨kws, []⟩
        List.nodup_nil
    refine ⟨h1, ?_, ?_⟩
    · rw [List.nil_append] at h2
      rw [← h2]
      exact h3
    · dsimp only at h4
      omega

/-- C1 (witness): the theorem applied to a concrete two-bullet
experience text and three distinct keywords. -/
theorem injection_pass_caps_witness :
    (["Spark".data, "Kafka".data, "SQL".data] : List Str).Nodup ∧
    ((∀ l ∈ injectionLog "- Did x.\n- Did y.".data
        ["Spark".data, "Kafka".data, "SQL".data], l.length ≤ 2) ∧
      (((injectionLog "- Did x.\n- Did y.".data
        ["Spark".data, "Kafka".data, "SQL".data]).flatten).map lowerStr).Nodup ∧
      (injectionLog "- Did x.\n- Did y.".data
        ["Spark".data, "Kafka".data, "SQL".data]).flatten.length ≤
        (["Spark".data, "Kafka".data, "SQL".data] : List Str).length) :=
  ⟨by decide, injection_pass_caps "- Did x.\n- Did y.".data
    ["Spark".data, "Kafka".data, "SQL".data] (by decide)⟩

/-! ### Tiering lemmas (C2) -/

theorem ceil35_le (n : Nat) : ceil35 n ≤ n := by
  unfold ceil35
  omega

theorem insDesc_perm (x : Str × Nat) (l : List (Str × Nat)) :
    List.Perm (insDesc x l) (x :: l) := by
  induction l with
  | nil => exact List.Perm.refl _
  | cons y ys ih =>
    unfold insDesc
    split
    · exact List.Perm.refl _
    · exact (List.Perm.cons y ih).trans (List.Perm.swap x y ys)

theorem sortDesc_perm (l : List (Str × Nat)) : List.Perm (sortDesc l) l := by
  induction l with
  | nil => exact List.Perm.refl _
  | cons x xs ih => exact (insDesc_perm x (sortDesc xs)).trans (List.Perm.cons x ih)

theorem mem_updFreq_keys (w x : Str) (m : List (Str × Nat))
    (h : x ∈ (updFreq w m).map Prod.fst) :
    x ∈ m.map Prod.fst ∨ x = w := by
  induction m with
  | nil =>
    simp only [updFreq, List.map_cons, List.map_nil, List.mem_singleton] at h
    exact Or.inr h
  | cons p rest ih =>
    obtain ⟨k, v⟩ := p
    simp only [updFreq] at h
    by_cases he : k = w
    · rw [if_pos he] at h
      simp only [List.map_cons] at h ⊢
      exact Or.inl h
    · rw [if_neg he] at h
      simp only [List.map_cons, List.mem_cons] at h ⊢
      rcases h with h | h
      · exact Or.inl (Or.inl h)
      · rcases ih h with h1 | h1
        · exact Or.inl (Or.inr h1)
        · exact Or.inr h1

theorem updFreq_keys_nodup (w : Str) (m : List (Str × Nat))
    (h : (m.map Prod.fst).Nodup) : ((updFreq w m).map Prod.fst).Nodup := by
  induction m with
  | nil => simp [updFreq]
  | cons p rest ih =>
    obtain ⟨k, v⟩ := p
    simp only [List.map_cons, List.nodup_cons] at h
    simp only [updFreq]
    by_cases he : k = w
    · rw [if_pos he]
      simp only [List.map_cons, List.nodup_cons]
      exact h
    · rw [if_neg he]
      simp only [List.map_cons, List.nodup_cons]
      refine ⟨?_, ih h.2⟩
      intro hmem
      rcases mem_updFreq_keys w k rest hmem with h1 | h1
      · exact h.1 h1
      · exact he h1

theorem buildFreq_from_nodup (ws : List Str) :
    ∀ m : List (Str × Nat), (m.map Prod.fst).Nodup →
      ((ws.foldl (fun m w => updFreq w m) m).map Prod.fst).Nodup := by
  induction ws with
  | nil => intro m h; exact h
  | cons w rest ih =>
    intro m h
    exact ih (updFreq w m) (updFreq_keys_nodup w m h)

theorem buildFreq_keys_nodup (ws : List Str) :
    ((buildFreq ws).map Prod.fst).Nodup :=
  buildFreq_from_nodup ws [] (by simp)

theorem ultra_all_nodup (text : Str) (maxK : Nat) :
    (ultraFastExtraction text maxK).all.Nodup := by
  simp only [ultraFastExtraction]
  have hperm := (sortDesc_perm (buildFreq (toksOf text))).map Prod.fst
  have hnd : ((sortDesc (buildFreq (toksOf text))).map Prod.fst).Nodup :=
    hperm.nodup_iff.mpr (buildFreq_keys_nodup _)
  exact (List.take_sublist _ _).nodup hnd

theorem cover_three (L : List Str) (a b : Nat) :
    L.take a ++ (L.drop a).take b ++ L.drop (a + b) = L := by
  have h1 : L.drop (a + b) = (L.drop a).drop b := by
    rw [List.drop_drop]
  rw [h1, List.append_assoc, List.take_append_drop, List.take_append_drop]

theorem nodup_three_disjoint (A B C : List Str)
    (h : (A ++ B ++ C).Nodup) :
    A.Disjoint B ∧ A.Disjoint C ∧ B.Disjoint C := by
  rcases List.nodup_append.mp h with ⟨hab, hc, hdj⟩
  rcases List.nodup_append.mp hab with ⟨ha, hb, hab2⟩
  rcases List.disjoint_append_left.mp hdj with ⟨hac, hbc⟩
  exact ⟨hab2, hac, hbc⟩

/-- C2 (counterexample): on the generic-extractor wrapping path the
high tier is capped at 12 entries, so with a ranked list of 35 keywords
`high.length = min 12 (ceil 12.25) = 12 ≠ 13 = ceil(0.35·total)` — the
claimed tiering invariant fails on that path. -/
theorem tiering_wrap_break :
    (wrapExtracted exSamp 35).highPriority.length ≠
      ceil35 (wrapExtracted exSamp 35).total := by decide

/-- C2 (amended): on the internal-fallback path the full invariant
holds: the three tiers concatenate to exactly the ranked list (which is
duplicate-free, so the tiers are pairwise disjoint), their lengths sum
to `total = all.length`, and `high.length = ceil(0.35·total)`.  On the
generic-extractor wrapping path the tiers still concatenate to exactly
the (untruncated) extracted list and their lengths sum to `total`,
which equals the extracted list's length — but `all` is truncated to
`maxKeywords` (so `total` can exceed `all.length`) and the high tier is
capped: `high.length = min (min 12 (ceil 0.35·total)) total`, which
equals `ceil(0.35·total)` only while that ceiling is at most 12; tiers
on that path are pairwise disjoint whenever the extractor's list is
duplicate-free. -/
theorem tiering_invariant_amended :
    (∀ (text : Str) (maxK : Nat),
      (ultraFastExtraction text maxK).highPriority ++
          (ultraFastExtraction text maxK).mediumPriority ++
          (ultraFastExtraction text maxK).lowPriority =
        (ultraFastExtraction text maxK).all ∧
      (ultraFastExtraction text maxK).highPriority.length +
          (ultraFastExtraction text maxK).mediumPriority.length +
          (ultraFastExtraction text maxK).lowPriority.length =
        (ultraFastExtraction text maxK).total ∧
      (ultraFastExtraction text maxK).total =
        (ultraFastExtraction text maxK).all.length ∧
      (ultraFastExtraction text maxK).highPriority.length =
        ceil35 (ultraFastExtraction text maxK).total ∧
      (ultraFastExtraction text maxK).all.Nodup ∧
      (ultraFastExtraction text maxK).highPriority.Disjoint
        (ultraFastExtraction text maxK).mediumPriority ∧
      (ultraFastExtraction text maxK).highPriority.Disjoint
        (ultraFastExtraction text maxK).lowPriority ∧
      (ultraFastExtraction text maxK).mediumPriority.Disjoint
        (ultraFastExtraction text maxK).lowPriority) ∧
    (∀ (ex : List Str) (maxK : Nat),
      (wrapExtracted ex maxK).highPriority ++
          (wrapExtracted ex maxK).mediumPriority ++
          (wrapExtracted ex maxK).lowPriority = ex ∧
      (wrapExtracted ex maxK).highPriority.length +
          (wrapExtracted ex maxK).mediumPriority.length +
          (wrapExtracted ex maxK).lowPriority.length =
        (wrapExtracted ex maxK).total ∧
      (wrapExtracted ex maxK).total = ex.length ∧
      (wrapExtracted ex maxK).all = ex.take maxK ∧
      (wrapExtracted ex maxK).highPriority.length =
        min (min 12 (ceil35 ex.length)) ex.length) ∧
    (∀ (ex : List Str) (maxK : Nat), ex.Nodup →
      (wrapExtracted ex maxK).highPriority.Disjoint
        (wrapExtracted ex maxK).mediumPriority ∧
      (wrapExtracted ex maxK).highPriority.Disjoint
        (wrapExtracted ex maxK).lowPriority ∧
      (wrapExtracted ex maxK).mediumPriority.Disjoint
        (wrapExtracted ex maxK).lowPriority) := by
  refine ⟨?_, ?_, ?_⟩
  · intro text maxK
    have hnd := ultra_all_nodup text maxK
    simp only [ultraFastExtraction] at hnd ⊢
    set sorted := ((sortDesc (buildFreq (toksOf text))).map Prod.fst).take maxK
      with hs
    have hcov := cover_three sorted (ceil35 sorted.length) (ceil35 sorted.length)
    have hlen := congrArg List.length hcov
    simp only [List.length_append] at hlen
    have hhigh : (sorted.take (ceil35 sorted.length)).length =
        ceil35 sorted.length := by
      rw [List.length_take]
      exact Nat.min_eq_left (ceil35_le _)
    refine ⟨hcov, by omega, by trivial, hhigh, hnd, ?_⟩
    have hnd2 : (sorted.take (ceil35 sorted.length) ++
        (sorted.drop (ceil35 sorted.length)).take (ceil35 sorted.length) ++
        sorted.drop (ceil35 sorted.length + ceil35 sorted.length)).Nodup := by
      rw [hcov]
      exact hnd
    exact nodup_three_disjoint _ _ _ hnd2
  · intro ex maxK
    simp only [wrapExtracted]
    have hcov := cover_three ex (min 12 (ceil35 ex.length))
      (min 10 (ceil35 ex.length))
    have hlen := congrArg List.length hcov
    simp only [List.length_append] at hlen
    have hhigh : (ex.take (min 12 (ceil35 ex.length))).length =
        min (min 12 (ceil35 ex.length)) ex.length := List.length_take _ _
    exact ⟨hcov, by omega, by trivial, by trivial, hhigh⟩
  · intro ex maxK hnd
    simp only [wrapExtracted]
    have hcov := cover_three ex (min 12 (ceil35 ex.length))
      (min 10 (ceil35 ex.length))
    have hnd2 : (ex.take (min 12 (ceil35 ex.length)) ++
        (ex.drop (min 12 (ceil35 ex.length))).take (min 10 (ceil35 ex.length)) ++
        ex.drop (min 12 (ceil35 ex.length) + min 10 (ceil35 ex.length))).Nodup := by
      rw [hcov]
      exact hnd
    exact nodup_three_disjoint _ _ _ hnd2

/-- C2 (witness): the wrapping-path disjointness applied to the
concrete 35-element duplicate-free extracted list. -/
theorem tiering_invariant_amended_witness :
    exSamp.Nodup ∧
    ((wrapExtracted exSamp 35).highPriority.Disjoint
        (wrapExtracted exSamp 35).mediumPriority ∧
      (wrapExtracted exSamp 35).highPriority.Disjoint
        (wrapExtracted exSamp 35).lowPriority ∧
      (wrapExtracted exSamp 35).mediumPriority.Disjoint
        (wrapExtracted exSamp 35).lowPriority) :=
  ⟨by decide, tiering_invariant_amended.2.2 exSamp 35 (by decide)⟩

/-! ### Frequency-score lemmas (C3) -/

theorem alookup_updFreq_self (w : Str) (m : List (Str × Nat)) :
    alookup w (updFreq w m) =
      some (((alookup w m).getD 0 + 1) * boostOf w) := by
  induction m with
  | nil => simp [updFreq, alookup]
  | cons p rest ih =>
    obtain ⟨k, v⟩ := p
    by_cases he : k = w
    · subst he
      simp [updFreq, alookup]
    · simp [updFreq, alookup, he, ih]

theorem alookup_updFreq_other (w v : Str) (m : List (Str × Nat))
    (hne : v ≠ w) : alookup w (updFreq v m) = alookup w m := by
  induction m with
  | nil => simp [updFreq, alookup, hne]
  | cons p rest ih =>
    obtain ⟨k, v2⟩ := p
    by_cases he : k = v
    · subst he
      simp [updFreq, alookup, hne]
    · by_cases hw : k = w
      · subst hw
        simp [updFreq, alookup, he]
      · simp [updFreq, alookup, he, hw, ih]

theorem alookup_foldl_updFreq (ws : List Str) :
    ∀ (m : List (Str × Nat)) (w : Str),
      alookup w (ws.foldl (fun m v => updFreq v m) m) =
        if ws.count w = 0 then alookup w m
        else some (scoreIter (boostOf w) ((alookup w m).getD 0)
          (ws.count w)) := by
  induction ws with
  | nil => intro m w; simp
  | cons v rest ih =>
    intro m w
    simp only [List.foldl_cons]
    by_cases he : v = w
    · subst he
      rw [ih (updFreq v m) v]
      rw [List.count_cons_self]
      rw [if_neg (Nat.succ_ne_zero _)]
      by_cases hz : rest.count v = 0
      · rw [if_pos hz, hz]
        rw [alookup_updFreq_self]
        rfl
      · rw [if_neg hz]
        rw [alookup_updFreq_self]
        rfl
    · rw [ih (updFreq v m) w]
      rw [alookup_updFreq_other w v m he]
      rw [List.count_cons_of_ne (fun hh => he hh.symm)]

theorem scoreIter_one (s n : Nat) : scoreIter 1 s n = s + n := by
  induction n generalizing s with
  | zero => rfl
  | succ k ih =>
    show scoreIter 1 ((s + 1) * 1) k = s + (k + 1)
    rw [Nat.mul_one, ih]
    omega

theorem scoreIter_three (s n : Nat) :
    2 * scoreIter 3 s n + 3 = (2 * s + 3) * 3 ^ n := by
  induction n generalizing s with
  | zero => simp [scoreIter]
  | succ k ih =>
    show 2 * scoreIter 3 ((s + 1) * 3) k + 3 = (2 * s + 3) * 3 ^ (k + 1)
    rw [ih ((s + 1) * 3)]
    ring

theorem splitWsAux_no_ws (s : Str) :
    ∀ cur, (∀ c ∈ cur, isWsChar c = false) →
      ∀ w ∈ splitWsAux s cur, ∀ c ∈ w, isWsChar c = false := by
  induction s with
  | nil =>
    intro cur hcur w hw
    simp only [splitWsAux] at hw
    split at hw
    · simp at hw
    · simp only [List.mem_singleton] at hw
      subst hw
      intro c hc
      exact hcur c (List.mem_reverse.mp hc)
  | cons x xs ih =>
    intro cur hcur w hw
    simp only [splitWsAux] at hw
    by_cases hx : isWsChar x = true
    · rw [if_pos hx] at hw
      split at hw
      · exact ih [] (by simp) w hw
      · rcases List.mem_cons.mp hw with rfl | hw2
        · intro c hc
          exact hcur c (List.mem_reverse.mp hc)
        · exact ih [] (by simp) w hw2
    · rw [if_neg hx] at hw
      have hx' : isWsChar x = false := by
        revert hx
        cases isWsChar x <;> simp
      refine ih (x :: cur) ?_ w hw
      intro c hc
      rcases List.mem_cons.mp hc with rfl | hc2
      · exact hx'
      · exact hcur c hc2

theorem toks_no_space (text : Str) (w : Str) (hw : w ∈ toksOf text) :
    ' ' ∉ w := by
  unfold toksOf at hw
  have hw2 := List.mem_of_mem_filter hw
  intro hsp
  exact absurd
    (splitWsAux_no_ws ((lowerStr text).map cleanChar) [] (by simp) w hw2
      ' ' hsp)
    (by decide)

theorem insDesc_pairwise (x : Str × Nat) (l : List (Str × Nat))
    (h : l.Pairwise (fun a b => b.2 ≤ a.2)) :
    (insDesc x l).Pairwise (fun a b => b.2 ≤ a.2) := by
  induction l with
  | nil => simp [insDesc]
  | cons y ys ih =>
    simp only [insDesc]
    rcases List.pairwise_cons.mp h with ⟨hy, hys⟩
    by_cases hc : y.2 ≤ x.2
    · rw [if_pos hc]
      refine List.pairwise_cons.mpr ⟨?_, h⟩
      intro z hz
      rcases List.mem_cons.mp hz with rfl | hz2
      · exact hc
      · exact le_trans (hy z hz2) hc
    · rw [if_neg hc]
      refine List.pairwise_cons.mpr ⟨?_, ih hys⟩
      intro z hz
      rcases List.mem_cons.mp ((insDesc_perm x ys).mem_iff.mp hz) with rfl | hz3
      · omega
      · exact hy z hz3

theorem sortDesc_pairwise (l : List (Str × Nat)) :
    (sortDesc l).Pairwise (fun a b => b.2 ≤ a.2) := by
  induction l with
  | nil => simp [sortDesc]
  | cons x xs ih => exact insDesc_pairwise x (sortDesc xs) ih

theorem insDesc_filter_eq (x : Str × Nat) (l : List (Str × Nat)) (s : Nat) :
    (insDesc x l).filter (fun e => decide (e.2 = s)) =
      if x.2 = s then x :: l.filter (fun e => decide (e.2 = s))
      else l.filter (fun e => decide (e.2 = s)) := by
  induction l with
  | nil =>
    simp only [insDesc]
    by_cases hx : x.2 = s
    · rw [if_pos hx]
      simp [List.filter, hx]
    · rw [if_neg hx]
      simp [List.filter, hx]
  | cons y ys ih =>
    simp only [insDesc]
    by_cases hc : y.2 ≤ x.2
    · rw [if_pos hc]
      by_cases hx : x.2 = s
      · rw [if_pos hx]
        simp [List.filter_cons, hx]
      · rw [if_neg hx]
        simp [List.filter_cons, hx]
    · rw [if_neg hc]
      by_cases hx : x.2 = s
      · rw [if_pos hx]
        have hy : ¬ y.2 = s := by omega
        simp only [List.filter_cons, ih, if_pos hx]
        simp [hy]
      · rw [if_neg hx]
        simp only [List.filter_cons, ih, if_neg hx]

theorem sortDesc_filter_eq (l : List (Str × Nat)) (s : Nat) :
    (sortDesc l).filter (fun e => decide (e.2 = s)) =
      l.filter (fun e => decide (e.2 = s)) := by
  induction l with
  | nil => rfl
  | cons x xs ih =>
    show (insDesc x (sortDesc xs)).filter (fun e => decide (e.2 = s)) = _
    rw [insDesc_filter_eq]
    by_cases hx : x.2 = s
    · rw [if_pos hx, ih]
      simp [List.filter_cons, hx]
    · rw [if_neg hx, ih]
      simp [List.filter_cons, hx]

/-- C3 (counterexample): the boost is not applied once to the final
occurrence count — on `python python alpha×7` the code ranks `python`
(compounded score (3+1)·3 = 12) above `alpha` (score 7), while the
claimed count×3 scoring (6 vs 7) would rank `alpha` first. -/
theorem boost_compounding_break :
    (ultraFastExtraction
        "python python alpha alpha alpha alpha alpha alpha alpha".data
        35).all ≠
      specRankedAll
        "python python alpha alpha alpha alpha alpha alpha alpha".data 35 ∧
    ((ultraFastExtraction
        "python python alpha alpha alpha alpha alpha alpha alpha".data
        35).all).head? = some "python".data ∧
    (specRankedAll
        "python python alpha alpha alpha alpha alpha alpha alpha".data
        35).head? = some "alpha".data := by decide

/-- C3 (amended): for every input text, each surviving token's table
entry equals `n` applications of the single-pass update
`s ↦ (s+1)·boost` to 0, where `n` is its occurrence count — for plain
tokens that is the plain count, but for allowlist tokens the 3× boost
compounds per occurrence (`2·score + 3 = 3^(n+1)`), not a single
multiplication of the count; allowlist membership is tested per
whitespace-free token, so multi-word allowlist entries such as
`machine learning` never match; the table is then sorted descending by
score with stable ties (equal-score entries keep their first-encounter
order) and truncated to `maxKeywords`. -/
theorem fallback_ranking_amended :
    (∀ (text : Str) (w : Str), w ∈ toksOf text →
      alookup w (buildFreq (toksOf text)) =
        some (scoreIter (boostOf w) 0 (List.count w (toksOf text)))) ∧
    (∀ s n : Nat, 2 * scoreIter 3 s n + 3 = (2 * s + 3) * 3 ^ n) ∧
    (∀ s n : Nat, scoreIter 1 s n = s + n) ∧
    (∀ (text : Str) (e : Str), ' ' ∈ e → e ∉ toksOf text) ∧
    (∀ (text : Str) (maxK : Nat),
      (ultraFastExtraction text maxK).all =
        ((sortDesc (buildFreq (toksOf text))).map Prod.fst).take maxK ∧
      (sortDesc (buildFreq (toksOf text))).Pairwise (fun a b => b.2 ≤ a.2) ∧
      ∀ s : Nat,
        (sortDesc (buildFreq (toksOf text))).filter
            (fun e => decide (e.2 = s)) =
          (buildFreq (toksOf text)).filter (fun e => decide (e.2 = s))) := by
  refine ⟨?_, scoreIter_three, scoreIter_one, ?_, ?_⟩
  · intro text w hw
    have hc : List.count w (toksOf text) ≠ 0 := by
      have := List.count_pos_iff.mpr hw
      omega
    have := alookup_foldl_updFreq (toksOf text) [] w
    rw [if_neg hc] at this
    simpa [buildFreq, alookup] using this
  · intro text e hsp hmem
    exact toks_no_space text e hmem hsp
  · intro text maxK
    exact ⟨rfl, sortDesc_pairwise _, fun s => sortDesc_filter_eq _ s⟩

/-- C3 (witness): the score characterization applied to the token
`python` occurring twice in a concrete text (compounded score 12). -/
theorem fallback_ranking_amended_witness :
    ("python".data ∈ toksOf "python python spark".data) ∧
    alookup "python".data (buildFreq (toksOf "python python spark".data)) =
      some (scoreIter (boostOf "python".data) 0
        (List.count "python".data (toksOf "python python spark".data))) ∧
    alookup "python".data (buildFreq (toksOf "python python spark".data)) =
      some 12 :=
  ⟨by decide,
    fallback_ranking_amended.1 "python python spark".data "python".data
      (by decide),
    by decide⟩

/-! ### Skills-consolidation lemmas (C8) -/

theorem consolidate_mono (kws : List Str) :
    ∀ (base : List Str) (a : Str), a ∈ base → a ∈ consolidate base kws := by
  induction kws with
  | nil => intro base a ha; exact ha
  | cons kw rest ih =>
    intro base a ha
    show a ∈ consolidate (stepSkill base kw) rest
    refine ih (stepSkill base kw) a ?_
    unfold stepSkill
    split
    · exact ha
    · unfold addUnique
      split
      · exact ha
      · exact List.mem_append_left _ ha

theorem lowerStr_resolveKw (kw : Str) :
    lowerStr (resolveKw kw) = lowerStr kw := by
  unfold resolveKw
  cases hf : properNouns.find? (fun p => decide (lowerStr p = lowerStr kw)) with
  | some p =>
    have := List.find?_some hf
    simpa using this
  | none => exact lowerStr_idem kw

theorem resolveKw_cases (kw : Str) :
    resolveKw kw ∈ properNouns ∨ resolveKw kw = lowerStr kw := by
  unfold resolveKw
  cases hf : properNouns.find? (fun p => decide (lowerStr p = lowerStr kw)) with
  | some p => exact Or.inl (List.mem_of_find?_eq_some hf)
  | none => exact Or.inr rfl

theorem consolidate_covers (kws : List Str) :
    ∀ base, ∀ kw ∈ kws,
      ∃ s ∈ consolidate base kws, lowerStr s = lowerStr kw := by
  induction kws with
  | nil => intro base kw h; simp at h
  | cons k rest ih =>
    intro base kw hkw
    rcases List.mem_cons.mp hkw with rfl | hkw2
    · show ∃ s ∈ consolidate (stepSkill base kw) rest, _
      by_cases hc : ∃ s ∈ base, lowerStr s = lowerStr kw
      · obtain ⟨s, hs, he⟩ := hc
        refine ⟨s, consolidate_mono rest _ s ?_, he⟩
        unfold stepSkill
        split
        · exact hs
        · unfold addUnique
          split
          · exact hs
          · exact List.mem_append_left _ hs
      · refine ⟨resolveKw kw, consolidate_mono rest _ _ ?_,
          lowerStr_resolveKw kw⟩
        unfold stepSkill
        rw [if_neg hc]
        unfold addUnique
        split
        · assumption
        · exact List.mem_append_right _ (List.mem_singleton_self _)
    · exact ih (stepSkill base k) kw hkw2

theorem consolidate_decomp (kws : List Str) :
    ∀ base, ∃ added : List Str,
      consolidate base kws = base ++ added ∧
      (added.map lowerStr).Nodup ∧
      ∀ a ∈ added, (∀ s ∈ base, lowerStr s ≠ lowerStr a) ∧
        (a ∈ properNouns ∨ ∃ kw ∈ kws, a = lowerStr kw) := by
  induction kws with
  | nil =>
    intro base
    exact ⟨[], by simp [consolidate], by simp, by simp⟩
  | cons k rest ih =>
    intro base
    show ∃ added, consolidate (stepSkill base k) rest = base ++ added ∧ _
    by_cases hc : ∃ s ∈ base, lowerStr s = lowerStr k
    · have hstep : stepSkill base k = base := by
        unfold stepSkill
        rw [if_pos hc]
      rw [hstep]
      obtain ⟨added, h1, h2, h3⟩ := ih base
      refine ⟨added, h1, h2, fun a ha => ⟨(h3 a ha).1, ?_⟩⟩
      rcases (h3 a ha).2 with h | ⟨kw, hk, he⟩
      · exact Or.inl h
      · exact Or.inr ⟨kw, List.mem_cons_of_mem _ hk, he⟩
    · have hnotmem : resolveKw k ∉ base := by
        intro hmem
        exact hc ⟨resolveKw k, hmem, lowerStr_resolveKw k⟩
      have hstep : stepSkill base k = base ++ [resolveKw k] := by
        unfold stepSkill
        rw [if_neg hc]
        unfold addUnique
        rw [if_neg hnotmem]
      rw [hstep]
      obtain ⟨added, h1, h2, h3⟩ := ih (base ++ [resolveKw k])
      refine ⟨resolveKw k :: added, ?_, ?_, ?_⟩
      · rw [h1, List.append_assoc]
        simp
      · simp only [List.map_cons, List.nodup_cons]
        refine ⟨?_, h2⟩
        intro hmem
        rcases List.mem_map.mp hmem with ⟨a, ha, he⟩
        exact (h3 a ha).1 (resolveKw k)
          (List.mem_append_right _ (List.mem_singleton_self _)) he.symm
      · intro a ha
        rcases List.mem_cons.mp ha with rfl | ha2
        · refine ⟨?_, ?_⟩
          · intro s hs he
            exact hc ⟨s, hs, by rw [he, lowerStr_resolveKw]⟩
          · rcases resolveKw_cases k with h | h
            · exact Or.inl h
            · exact Or.inr ⟨k, List.mem_cons_self _ _, h⟩
        · have h3a := h3 a ha2
          refine ⟨?_, ?_⟩
          · intro s hs
            exact h3a.1 s (List.mem_append_left _ hs)
          · rcases h3a.2 with h | ⟨kw, hk, he⟩
            · exact Or.inl h
            · exact Or.inr ⟨kw, List.mem_cons_of_mem _ hk, he⟩

/-- C8: skills consolidation extends the existing skill set by exactly
the keywords without a case-insensitive match — each addition is either
a proper-noun table entry or the lowercased keyword, additions are
pairwise case-insensitively distinct and case-insensitively absent from
the existing set, every keyword ends up represented (case-insensitively)
in the result, and the output is the set joined with `, ` in insertion
order; on the claimed scenario (skills body `Java, SQL`, keywords
Python/AWS/Docker/Kubernetes) the skills line is exactly
`Java, SQL, Python, AWS, Docker, Kubernetes` and the (absent)
experience section is left unchanged. -/
theorem skills_consolidation_spec (skillsText : Str) (kws : List Str) :
    (∃ added : List Str,
      consolidate (baseSkills skillsText) kws =
        baseSkills skillsText ++ added ∧
      (added.map lowerStr).Nodup ∧
      ∀ a ∈ added,
        (∀ s ∈ baseSkills skillsText, lowerStr s ≠ lowerStr a) ∧
        (a ∈ properNouns ∨ ∃ kw ∈ kws, a = lowerStr kw)) ∧
    (∀ kw ∈ kws, ∃ s ∈ consolidate (baseSkills skillsText) kws,
      lowerStr s = lowerStr kw) ∧
    formatSkillsSection skillsText kws =
      joinSep ", ".data (consolidate (baseSkills skillsText) kws) ∧
    (formatSkillsSection "Java, SQL".data
        ["Python".data, "AWS".data, "Docker".data, "Kubernetes".data] =
      "Java, SQL, Python, AWS, Docker, Kubernetes".data ∧
      formatExperienceWithKeywords []
        ["Python".data, "AWS".data, "Docker".data, "Kubernetes".data] =
        []) :=
  ⟨consolidate_decomp kws (baseSkills skillsText),
    fun kw hk => consolidate_covers kws (baseSkills skillsText) kw hk,
    rfl,
    by decide, rfl⟩

/-- C8 (witness): the coverage part applied to the concrete scenario
inputs and the keyword `Python`. -/
theorem skills_consolidation_spec_witness :
    ("Python".data ∈
      (["Python".data, "AWS".data, "Docker".data, "Kubernetes".data] :
        List Str)) ∧
    ∃ s ∈ consolidate (baseSkills "Java, SQL".data)
        ["Python".data, "AWS".data, "Docker".data, "Kubernetes".data],
      lowerStr s = lowerStr "Python".data :=
  ⟨by decide,
    (skills_consolidation_spec "Java, SQL".data
        ["Python".data, "AWS".data, "Docker".data, "Kubernetes".data]).2.1
      "Python".data (by decide)⟩

/-! ### Text-position lemmas for the tailoring fallback (C4) -/

theorem take_add_split (s : Str) (m n : Nat) :
    s.take (m + n) = s.take m ++ (s.drop m).take n := by
  induction s generalizing m with
  | nil => simp
  | cons c r ih =>
    cases m with
    | zero => simp
    | succ m2 =>
      have harith : m2 + 1 + n = (m2 + n) + 1 := by omega
      rw [harith]
      simp only [List.take_succ_cons, List.drop_succ_cons, List.cons_append]
      rw [ih]

theorem findIdxNl_take (s : Str) :
    ∀ j, findIdxNl s = some j → s.take (j + 1) = s.take j ++ ['\n'] := by
  induction s with
  | nil => intro j h; exact absurd h (by simp [findIdxNl])
  | cons c r ih =>
    intro j h
    simp only [findIdxNl] at h
    by_cases hc : c = '\n'
    · rw [if_pos hc] at h
      obtain rfl : 0 = j := Option.some.inj h
      simp [hc]
    · rw [if_neg hc] at h
      cases hf : findIdxNl r with
      | none => rw [hf] at h; exact absurd h (by simp)
      | some j2 =>
        rw [hf] at h
        simp only [Option.map_some'] at h
        obtain rfl : j2 + 1 = j := Option.some.inj h
        simp only [List.take_succ_cons, List.cons_append]
        rw [ih j2 hf]

theorem idxOfNl_take (s : Str) (start p : Nat) (h : idxOfNl s start = some p) :
    ∃ A0, s.take (p + 1) = A0 ++ ['\n'] := by
  unfold idxOfNl at h
  cases hf : findIdxNl (s.drop start) with
  | none => rw [hf] at h; exact absurd h (by simp)
  | some j =>
    rw [hf] at h
    simp only [Option.map_some'] at h
    obtain rfl : start + j = p := Option.some.inj h
    refine ⟨s.take start ++ (s.drop start).take j, ?_⟩
    have harith : start + j + 1 = start + (j + 1) := by omega
    rw [harith, take_add_split, findIdxNl_take (s.drop start) j hf,
      List.append_assoc]

theorem splitNl_ne_nil (s : Str) : splitNl s ≠ [] := by
  cases s with
  | nil => simp [splitNl]
  | cons c rest =>
    simp only [splitNl]
    split
    · simp
    · split <;> simp

theorem joinNl_splitNl (s : Str) : joinNl (splitNl s) = s := by
  induction s with
  | nil => rfl
  | cons c rest ih =>
    simp only [splitNl]
    by_cases hc : c = '\n'
    · rw [if_pos hc]
      cases hs : splitNl rest with
      | nil => exact absurd hs (splitNl_ne_nil rest)
      | cons h t =>
        rw [hs] at ih
        show joinNl ([] :: h :: t) = c :: rest
        show [] ++ '\n' :: joinNl (h :: t) = c :: rest
        rw [List.nil_append, ih, hc]
    · rw [if_neg hc]
      cases hs : splitNl rest with
      | nil => exact absurd hs (splitNl_ne_nil rest)
      | cons h t =>
        rw [hs] at ih
        cases t with
        | nil =>
          show c :: h = c :: rest
          have : joinNl [h] = h := rfl
          rw [this] at ih
          rw [ih]
        | cons t1 ts =>
          show (c :: h) ++ '\n' :: joinNl (t1 :: ts) = c :: rest
          have : joinNl (h :: t1 :: ts) = h ++ '\n' :: joinNl (t1 :: ts) := rfl
          rw [this] at ih
          rw [List.cons_append, ih]

theorem joinNl_cons_ne (l : Str) (ls : List Str) (h : ls ≠ []) :
    joinNl (l :: ls) = l ++ '\n' :: joinNl ls := by
  cases ls with
  | nil => exact absurd rfl h
  | cons a t => rfl

theorem joinNl_append_ne (pre suf : List Str) (hp : pre ≠ []) (hs : suf ≠ []) :
    joinNl (pre ++ suf) = joinNl pre ++ '\n' :: joinNl suf := by
  induction pre with
  | nil => exact absurd rfl hp
  | cons l rest ih =>
    cases rest with
    | nil =>
      cases suf with
      | nil => exact absurd rfl hs
      | cons s1 st =>
        show joinNl (l :: s1 :: st) = l ++ '\n' :: joinNl (s1 :: st)
        rfl
    | cons r1 rt =>
      have hne : (r1 :: rt) ++ suf ≠ [] := by simp
      rw [List.cons_append, joinNl_cons_ne l ((r1 :: rt) ++ suf) hne,
        joinNl_cons_ne l (r1 :: rt) (by simp), ih (by simp)]
      simp [List.append_assoc]

theorem findHdr_offsets (names : List Str) (ls : List Str) :
    ∀ off i, findHdr names off ls = some i →
      i = off ∨ ∃ pre suf, pre ≠ [] ∧ suf ≠ [] ∧ ls = pre ++ suf ∧
        i = off + (joinNl pre).length + 1 := by
  induction ls with
  | nil => intro off i h; exact absurd h (by simp [findHdr])
  | cons l ls2 ih =>
    intro off i h
    simp only [findHdr] at h
    by_cases hm : lineMatchesHeader names l = true
    · rw [if_pos hm] at h
      exact Or.inl (Option.some.inj h).symm
    · rw [if_neg hm] at h
      have hne2 : ls2 ≠ [] := by
        intro he
        rw [he] at h
        exact absurd h (by simp [findHdr])
      rcases ih (off + l.length + 1) i h with h1 | ⟨pre, suf, hpre, hsuf, heq, hi⟩
      · refine Or.inr ⟨[l], ls2, by simp, hne2, by simp, ?_⟩
        show i = off + l.length + 1
        rw [h1]
      · refine Or.inr ⟨l :: pre, suf, by simp, hsuf, by rw [heq]; rfl, ?_⟩
        rw [joinNl_cons_ne l pre hpre]
        simp only [List.length_append, List.length_cons]
        omega

theorem findHeaderLine_boundary (names : List Str) (cv : Str) (i : Nat)
    (h : findHeaderLine names cv = some i) :
    i = 0 ∨ ∃ A0, cv.take i = A0 ++ ['\n'] := by
  unfold findHeaderLine at h
  rcases findHdr_offsets names (splitNl cv) 0 i h with h1 | ⟨pre, suf, hpre, hsuf, heq, hi⟩
  · exact Or.inl h1
  · right
    refine ⟨joinNl pre, ?_⟩
    have hcv : cv = joinNl pre ++ '\n' :: joinNl suf := by
      conv_lhs => rw [← joinNl_splitNl cv]
      rw [heq]
      exact joinNl_append_ne pre suf hpre hsuf
    rw [hcv]
    have harith : i = (joinNl pre).length + 1 := by omega
    rw [harith]
    rw [take_add_split, List.take_left, List.drop_left]
    simp

theorem subOf_insert_preserved (p A mid B : Str)
    (hnl : '\n' ∉ p)
    (hA : A = [] ∨ ∃ A0, A = A0 ++ ['\n'])
    (h : subOf p (A ++ B) = true) :
    subOf p (A ++ mid ++ B) = true := by
  rcases subOf_append_cases p A B h with h1 | h1 | ⟨p1, p2, hp, hne1, hne2, t, ht⟩
  · exact subOf_append_left _ _ _ (subOf_append_left _ _ _ h1)
  · exact subOf_append_right _ _ _ h1
  · rcases hA with rfl | ⟨A0, rfl⟩
    · have hp1 : p1 = [] := by
        have := congrArg List.length ht
        simp only [List.length_append, List.length_nil] at this
        exact List.eq_nil_of_length_eq_zero (by omega)
      exact absurd hp1 hne1
    · have hc : '\n' ∈ p1 := mem_of_suffix_concat t p1 A0 '\n' ht.symm hne1
      rw [hp] at hnl
      exact absurd (List.mem_append_left p2 hc) hnl

theorem missingOf_eq_nil (cv : Str) (kws : List Str)
    (h : ∀ kw ∈ kws, subOf (lowerStr kw) (lowerStr cv) = true) :
    missingOf cv kws = [] := by
  unfold missingOf
  rw [List.filter_eq_nil_iff]
  intro kw hkw
  rw [h kw hkw]
  simp

theorem not_missing_subOf (cv : Str) (kws : List Str) (kw : Str)
    (hkw : kw ∈ kws) (h : kw ∉ missingOf cv kws) :
    subOf (lowerStr kw) (lowerStr cv) = true := by
  by_cases hs : subOf (lowerStr kw) (lowerStr cv) = true
  · exact hs
  · exfalso
    apply h
    unfold missingOf
    refine List.mem_filter.mpr ⟨hkw, ?_⟩
    have hf : subOf (lowerStr kw) (lowerStr cv) = false := by
      revert hs
      cases subOf (lowerStr kw) (lowerStr cv) <;> simp
    rw [hf]
    rfl

theorem fastTailor_of_missing_nil (cv : Str) (kws : List Str)
    (h : missingOf cv kws = []) : fastTailorFallback cv kws = ⟨cv, []⟩ := by
  simp only [fastTailorFallback]
  rw [if_pos h]

theorem fastTailor_shape (cvText : Str) (kws : List Str)
    (hmiss : missingOf cvText kws ≠ []) :
    (∃ p : Nat,
      fastTailorFallback cvText kws =
        ⟨cvText.take (p + 1) ++
          ('\n' :: (joinSep ", ".data ((missingOf cvText kws).take 15) ++
            ['\n'])) ++ cvText.drop (p + 1),
         (missingOf cvText kws).take 15⟩ ∧
      ∃ A0, cvText.take (p + 1) = A0 ++ ['\n']) ∨
    fastTailorFallback cvText kws = ⟨cvText, []⟩ ∨
    (∃ e : Nat,
      fastTailorFallback cvText kws =
        ⟨cvText.take e ++
          ("\nSKILLS\n".data ++
            joinSep ", ".data ((missingOf cvText kws).take 15) ++
            "\n\n".data) ++ cvText.drop e,
         (missingOf cvText kws).take 15⟩ ∧
      (e = 0 ∨ ∃ A0, cvText.take e = A0 ++ ['\n'])) ∨
    fastTailorFallback cvText kws =
      ⟨cvText ++
        ("\nSKILLS\n".data ++
          joinSep ", ".data ((missingOf cvText kws).take 15) ++
          "\n\n".data),
       (missingOf cvText kws).take 15⟩ := by
  simp only [fastTailorFallback]
  rw [if_neg hmiss]
  cases hf : findHeaderLine skillsHeaderNames cvText with
  | some idx =>
    dsimp only
    cases hni : idxOfNl cvText idx with
    | some p =>
      exact Or.inl ⟨p, rfl, idxOfNl_take cvText idx p hni⟩
    | none => exact Or.inr (Or.inl rfl)
  | none =>
    dsimp only
    cases he : findHeaderLine eduHeaderNames cvText with
    | some e =>
      exact Or.inr (Or.inr (Or.inl
        ⟨e, rfl, findHeaderLine_boundary _ _ e he⟩))
    | none => exact Or.inr (Or.inr (Or.inr rfl))

theorem missing_in_join (cvText : Str) (kws : List Str) (kw : Str)
    (hm : (missingOf cvText kws).length ≤ 15)
    (hkw : kw ∈ missingOf cvText kws) :
    subOf (lowerStr kw)
      (lowerStr (joinSep ", ".data ((missingOf cvText kws).take 15))) =
      true := by
  rw [List.take_of_length_le hm]
  exact subOf_map _ _ _ (subOf_joinSep_of_mem _ _ _ hkw)

/-- C4 (counterexample): with 16 missing keywords the first tailoring
pass injects only the first 15, so a second pass on the tailored output
still injects the 16th keyword — the claimed unconditional idempotence
fails. -/
theorem tailor_twice_break :
    (fastTailorFallback
      (fastTailorFallback "SKILLS\nJava\n".data c4kws).tailoredCV
      c4kws).injectedKeywords = ["kw16".data] ∧
    (fastTailorFallback
      (fastTailorFallback "SKILLS\nJava\n".data c4kws).tailoredCV
      c4kws).injectedKeywords ≠ [] := by decide

/-- C4 (amended): the tailoring fallback is idempotent provided at most
15 keywords are missing from the CV (one pass then injects all of them)
and no keyword contains a newline (a newline-containing keyword whose
only occurrence straddles the insertion point could be broken by the
insertion): under those conditions the second run's injected-keyword
list is empty.  With more than 15 missing keywords the second run
injects again (see the counterexample). -/
theorem tailor_idempotent_amended (cvText : Str) (kws : List Str)
    (hm : (missingOf cvText kws).length ≤ 15)
    (hnl : ∀ kw ∈ kws, ('\n' : Char) ∉ kw) :
    (fastTailorFallback (fastTailorFallback cvText kws).tailoredCV
      kws).injectedKeywords = [] := by
  by_cases h0 : missingOf cvText kws = []
  · rw [fastTailor_of_missing_nil cvText kws h0]
    show (fastTailorFallback cvText kws).injectedKeywords = []
    rw [fastTailor_of_missing_nil cvText kws h0]
  · have hall : ∀ tl : Str,
        (∀ kw ∈ kws, subOf (lowerStr kw) (lowerStr tl) = true) →
        (fastTailorFallback tl kws).injectedKeywords = [] := by
      intro tl h
      rw [fastTailor_of_missing_nil tl kws (missingOf_eq_nil tl kws h)]
    rcases fastTailor_shape cvText kws h0 with
      ⟨p, heq, A0, hA⟩ | heq | ⟨e, heq, hbound⟩ | heq
    · rw [heq]
      apply hall
      intro kw hkw
      show subOf (lowerStr kw)
        (lowerStr ((cvText.take (p + 1) ++
          ('\n' :: (joinSep ", ".data ((missingOf cvText kws).take 15) ++
            ['\n']))) ++ cvText.drop (p + 1))) = true
      rw [lowerStr_append, lowerStr_append]
      by_cases hmem : kw ∈ missingOf cvText kws
      · apply subOf_append_left
        apply subOf_append_right
        rw [lowerStr_cons, toLower_nl, lowerStr_append]
        apply subOf_cons
        apply subOf_append_left
        exact missing_in_join cvText kws kw hm hmem
      · have hsub := not_missing_subOf cvText kws kw hkw hmem
        have hcv : lowerStr cvText =
            lowerStr (cvText.take (p + 1)) ++ lowerStr (cvText.drop (p + 1)) := by
          conv_lhs => rw [← List.take_append_drop (p + 1) cvText]
          exact lowerStr_append _ _
        rw [hcv] at hsub
        apply subOf_insert_preserved
        · intro hc
          exact hnl kw hkw (nl_mem_of_mem_lowerStr kw hc)
        · right
          refine ⟨lowerStr A0, ?_⟩
          rw [hA, lowerStr_append]
          congr 1
        · exact hsub
    · rw [heq]
      show (fastTailorFallback cvText kws).injectedKeywords = []
      rw [heq]
    · rw [heq]
      apply hall
      intro kw hkw
      show subOf (lowerStr kw)
        (lowerStr ((cvText.take e ++
          ("\nSKILLS\n".data ++
            joinSep ", ".data ((missingOf cvText kws).take 15) ++
            "\n\n".data)) ++ cvText.drop e)) = true
      rw [lowerStr_append, lowerStr_append]
      by_cases hmem : kw ∈ missingOf cvText kws
      · apply subOf_append_left
        apply subOf_append_right
        rw [lowerStr_append, lowerStr_append]
        apply subOf_append_left
        apply subOf_append_right
        exact missing_in_join cvText kws kw hm hmem
      · have hsub := not_missing_subOf cvText kws kw hkw hmem
        have hcv : lowerStr cvText =
            lowerStr (cvText.take e) ++ lowerStr (cvText.drop e) := by
          conv_lhs => rw [← List.take_append_drop e cvText]
          exact lowerStr_append _ _
        rw [hcv] at hsub
        apply subOf_insert_preserved
        · intro hc
          exact hnl kw hkw (nl_mem_of_mem_lowerStr kw hc)
        · rcases hbound with he0 | ⟨A0, hA0⟩
          · left
            rw [he0]
            rfl
          · right
            refine ⟨lowerStr A0, ?_⟩
            rw [hA0, lowerStr_append]
            congr 1
        · exact hsub
    · rw [heq]
      apply hall
      intro kw hkw
      show subOf (lowerStr kw)
        (lowerStr (cvText ++
          ("\nSKILLS\n".data ++
            joinSep ", ".data ((missingOf cvText kws).take 15) ++
            "\n\n".data))) = true
      rw [lowerStr_append]
      by_cases hmem : kw ∈ missingOf cvText kws
      · apply subOf_append_right
        rw [lowerStr_append, lowerStr_append]
        apply subOf_append_left
        apply subOf_append_right
        exact missing_in_join cvText kws kw hm hmem
      · exact subOf_append_left _ _ _ (not_missing_subOf cvText kws kw hkw hmem)

/-- C4 (witness): the amended theorem applied to the CV `SKILLS\nJava\n`
with the single missing, newline-free keyword `python`. -/
theorem tailor_idempotent_amended_witness :
    ((missingOf "SKILLS\nJava\n".data ["python".data]).length ≤ 15 ∧
      ∀ kw ∈ (["python".data] : List Str), ('\n' : Char) ∉ kw) ∧
    (fastTailorFallback
      (fastTailorFallback "SKILLS\nJava\n".data
        ["python".data]).tailoredCV
      ["python".data]).injectedKeywords = [] :=
  ⟨⟨by decide, by decide⟩,
    tailor_idempotent_amended "SKILLS\nJava\n".data ["python".data]
      (by decide) (by decide)⟩

end GitBuddy
